import Mathlib

/-!
Verification of the SushiAMO desktop print-worker core.

The definitions below are a shallow embedding of the TypeScript source of
the print worker (the `DesktopPrintWorker` module).  JavaScript strings are
modelled as `List Char`; JavaScript numbers are modelled by `JsNum`
(rationals plus the non-finite values, so `Number.isFinite` and
`Math.trunc`/`Math.round` are explicit); `toLowerCase`/`toUpperCase` are
modelled on the ASCII range plus the six Italian accented vowels that the
source's own character class mentions.  Environment inputs (`os.hostname()`,
`process.platform`) are passed as explicit parameters.  Stateful code is
modelled as pure transition functions over explicit state, with network and
RPC outcomes supplied by oracle functions, producing explicit event traces.
-/

namespace Sushiamo

/-- Whitespace predicate used to model both `String.prototype.trim` and the
regex class `\s` of the source (space, tab, LF, CR, VT, FF). -/
def isWs (c : Char) : Bool :=
  c.toNat = 32 || c.toNat = 9 || c.toNat = 10 || c.toNat = 13 ||
    c.toNat = 11 || c.toNat = 12

/-- Model of JS `toLowerCase` on one character: ASCII `A`-`Z` plus the six
accented vowels `ÀÈÉÌÒÙ` that occur in the source's character classes. -/
def toLowerChar (c : Char) : Char :=
  if 65 ≤ c.toNat ∧ c.toNat ≤ 90 then Char.ofNat (c.toNat + 32)
  else if c.toNat = 192 ∨ c.toNat = 200 ∨ c.toNat = 201 ∨ c.toNat = 204 ∨
      c.toNat = 210 ∨ c.toNat = 217 then Char.ofNat (c.toNat + 32)
  else c

/-- Model of JS `toUpperCase` on one character (inverse range of
`toLowerChar`). -/
def toUpperChar (c : Char) : Char :=
  if 97 ≤ c.toNat ∧ c.toNat ≤ 122 then Char.ofNat (c.toNat - 32)
  else if c.toNat = 224 ∨ c.toNat = 232 ∨ c.toNat = 233 ∨ c.toNat = 236 ∨
      c.toNat = 242 ∨ c.toNat = 249 then Char.ofNat (c.toNat - 32)
  else c

/-- JS `toLowerCase` on a whole string. -/
def toLowerJs (l : List Char) : List Char := l.map toLowerChar

/-- Drop trailing characters satisfying `p` (the right half of `trim`). -/
def dropTrailing (p : Char → Bool) (l : List Char) : List Char :=
  (l.reverse.dropWhile p).reverse

/-- Strip leading and trailing characters satisfying `p`; with `p = isWs`
this is JS `String.prototype.trim`, with `p = (· = '-')` it is the source's
`replace(/^-+|-+$/g, "")`. -/
def stripEnds (p : Char → Bool) (l : List Char) : List Char :=
  dropTrailing p (l.dropWhile p)

/-- JS `String.prototype.trim`. -/
def trim (l : List Char) : List Char := stripEnds isWs l

/-- Worker for `collapseRuns`: `inRun` records whether the previous kept
position was inside a run of characters satisfying `p`. -/
def collapseGo (p : Char → Bool) (r : Char) : Bool → List Char → List Char
  | _, [] => []
  | inRun, c :: cs =>
    if p c then
      if inRun then collapseGo p r true cs else r :: collapseGo p r true cs
    else c :: collapseGo p r false cs

/-- Model of JS `replace(/X+/g, r)`: every maximal run of characters
satisfying `p` is replaced by the single character `r`. -/
def collapseRuns (p : Char → Bool) (r : Char) (l : List Char) : List Char :=
  collapseGo p r false l

/-- The character class `[a-z0-9._:-]` of `sanitizeConsumerId`. -/
def consumerAllowed (c : Char) : Bool :=
  (97 ≤ c.toNat ∧ c.toNat ≤ 122) || (48 ≤ c.toNat ∧ c.toNat ≤ 57) ||
    c.toNat = 46 || c.toNat = 95 || c.toNat = 58 || c.toNat = 45

/-- The character class `[a-z0-9-]` of the hostname fallback in
`sanitizeConsumerId`. -/
def hostAllowed (c : Char) : Bool :=
  (97 ≤ c.toNat ∧ c.toNat ≤ 122) || (48 ≤ c.toNat ∧ c.toNat ≤ 57) ||
    c.toNat = 45

/-- JS numbers as seen after `Number(...)` coercion: a finite value
(modelled as a rational) or one of the non-finite values. -/
inductive JsNum where
  | nan : JsNum
  | posInf : JsNum
  | negInf : JsNum
  | num : ℚ → JsNum
deriving DecidableEq

/-- Model of `Number.isFinite`. -/
def JsNum.isFinite : JsNum → Bool
  | .num _ => true
  | _ => false

/-- JS `Math.trunc` on a finite number: truncation toward zero. -/
def jsTrunc (q : ℚ) : ℤ := if 0 ≤ q then ⌊q⌋ else ⌈q⌉

/-- JS `Math.round` on a finite number: round half toward positive
infinity. -/
def jsRound (q : ℚ) : ℤ := ⌊q + 1 / 2⌋

/-- Source `sanitizePollMs`: non-finite input falls back to 2500, otherwise
the truncation clamped to `[1000, 10000]`. -/
def sanitizePollMs : JsNum → ℤ
  | .num q => max 1000 (min 10000 (jsTrunc q))
  | _ => 2500

/-- Source `sanitizeClaimLimit`: non-finite input falls back to 5, otherwise
the truncation clamped to `[1, 20]`. -/
def sanitizeClaimLimit : JsNum → ℤ
  | .num q => max 1 (min 20 (jsTrunc q))
  | _ => 5

/-- Source `sanitizePrinterPort`: non-finite input falls back to 9100,
otherwise the truncation if it lies in `[1, 65535]` and 9100 if not. -/
def sanitizePrinterPort : JsNum → ℤ
  | .num q =>
    let port := jsTrunc q
    if 1 ≤ port ∧ port ≤ 65535 then port else 9100
  | _ => 9100

/-- A `JsNum` denotes a mathematical integer. -/
def JsNum.isIntegral : JsNum → Prop
  | .num q => ∃ n : ℤ, q = (n : ℚ)
  | _ => False

theorem jsTrunc_intCast (n : ℤ) : jsTrunc (n : ℚ) = n := by
  unfold jsTrunc
  rcases le_or_lt 0 (n : ℚ) with h | h
  · simp [h]
  · rw [if_neg (by exact not_le.mpr h)]
    exact Int.ceil_intCast n

/-- C4 counterexample input: the rational 3/2. -/
def c4Input : JsNum := JsNum.num (3 / 2)

theorem jsTrunc_three_halves : jsTrunc (3 / 2 : ℚ) = 1 := by
  unfold jsTrunc
  rw [if_pos (by norm_num)]
  rw [Int.floor_eq_iff]
  norm_num

/-- C4: the claim as stated is false: `sanitizePrinterPort (3/2)` is `1`,
not `9100`, although `3/2` is not an integer and hence (being a
non-integer) the claim requires the result `9100`. -/
theorem c4_counterexample :
    sanitizePrinterPort c4Input = 1 ∧ ¬ c4Input.isIntegral := by
  constructor
  · show sanitizePrinterPort (JsNum.num (3 / 2)) = 1
    simp only [sanitizePrinterPort, jsTrunc_three_halves]
    norm_num
  · rintro ⟨n, hn⟩
    have h3 : (3 : ℚ) = 2 * (n : ℚ) := by
      rw [div_eq_iff (by norm_num : (2:ℚ) ≠ 0)] at hn
      linarith
    have h3' : (3 : ℤ) = 2 * n := by exact_mod_cast h3
    omega

theorem sanitizePrinterPort_range (v : JsNum) :
    1 ≤ sanitizePrinterPort v ∧ sanitizePrinterPort v ≤ 65535 := by
  cases v with
  | num q =>
    simp only [sanitizePrinterPort]
    split
    · omega
    · omega
  | nan => exact ⟨by norm_num [sanitizePrinterPort], by norm_num [sanitizePrinterPort]⟩
  | posInf => exact ⟨by norm_num [sanitizePrinterPort], by norm_num [sanitizePrinterPort]⟩
  | negInf => exact ⟨by norm_num [sanitizePrinterPort], by norm_num [sanitizePrinterPort]⟩

/-- C4 (amended): `sanitizePrinterPort` always yields an integer in
`[1, 65535]`; the result is 9100 whenever the input is non-finite or its
truncation lies outside `[1, 65535]`; a finite input whose truncation lies
inside the range yields that truncation (even when the input itself is not
an integer). -/
theorem c4_sanitizePrinterPort_amended (v : JsNum) :
    (1 ≤ sanitizePrinterPort v ∧ sanitizePrinterPort v ≤ 65535) ∧
    (v.isFinite = false → sanitizePrinterPort v = 9100) ∧
    (∀ q : ℚ, v = JsNum.num q →
      ((1 ≤ jsTrunc q ∧ jsTrunc q ≤ 65535) → sanitizePrinterPort v = jsTrunc q) ∧
      (¬ (1 ≤ jsTrunc q ∧ jsTrunc q ≤ 65535) → sanitizePrinterPort v = 9100)) := by
  refine ⟨sanitizePrinterPort_range v, ?_, ?_⟩
  · intro h
    cases v with
    | num q => simp [JsNum.isFinite] at h
    | nan => rfl
    | posInf => rfl
    | negInf => rfl
  · rintro q rfl
    constructor
    · intro h
      simp [sanitizePrinterPort, h]
    · intro h
      simp only [sanitizePrinterPort]
      rw [if_neg h]

/-- C4 amended witness: at the concrete input 80, the port is kept. -/
theorem c4_witness :
    sanitizePrinterPort (JsNum.num 80) = jsTrunc 80 := by
  have h80 : jsTrunc (80 : ℚ) = 80 := by
    have := jsTrunc_intCast 80
    simpa using this
  have h := (c4_sanitizePrinterPort_amended (JsNum.num 80)).2.2 80 rfl
  exact h.1 (by rw [h80]; omega)

/-- Holds when `pat` is an initial segment of `l`. -/
def strStarts : List Char → List Char → Bool
  | [], _ => true
  | _ :: _, [] => false
  | p :: ps, c :: cs => p = c && strStarts ps cs

/-- Model of JS `String.prototype.includes`: `pat` occurs contiguously in
`l`. -/
def strContains (pat : List Char) : List Char → Bool
  | [] => pat.isEmpty
  | c :: cs => strStarts pat (c :: cs) || strContains pat cs

/-- Source `shouldRetryPrintLocally`: the lowercased error message contains
one of the five retriable needles.  Errors are modelled by their message
strings (`normalizeError` of an `Error` is its message). -/
def shouldRetryPrintLocally (e : List Char) : Bool :=
  let message := toLowerJs e
  strContains ("timeout".toList) message ||
    strContains ("econnreset".toList) message ||
    strContains ("ehostunreach".toList) message ||
    strContains ("econnrefused".toList) message ||
    strContains ("epipe".toList) message

/-- Events of one local delivery: a network attempt (numbered from 1) or the
`sleep(500)` pause between attempts. -/
inductive SendEvent where
  | attempt : ℕ → SendEvent
  | sleep500 : SendEvent
deriving DecidableEq

/-- The local retry loop `for (attempt = 1; attempt <= 2; attempt++)`
shared verbatim by `sendToPrinter`, `sendToPhysicalReceiptDevice` and
`sendToNonFiscalReceiptPrinter`.  `outcome n` is the oracle result of the
`n`-th network attempt (`none` = success); `left` counts the attempts still
allowed including the current one, so `left = 1` models `attempt >= 2`.
Returns the event trace and the final error (`none` = delivered). -/
def localRetryGo (outcome : ℕ → Option (List Char)) :
    ℕ → ℕ → List SendEvent × Option (List Char)
  | _, 0 => ([], none)
  | attempt, left + 1 =>
    match outcome attempt with
    | none => ([SendEvent.attempt attempt], none)
    | some e =>
      if left = 0 ∨ ¬ shouldRetryPrintLocally e then
        ([SendEvent.attempt attempt], some e)
      else
        let rest := localRetryGo outcome (attempt + 1) left
        (SendEvent.attempt attempt :: SendEvent.sleep500 :: rest.1, rest.2)

/-- Entry point of the local retry loop: first attempt is attempt 1 and two
attempts are allowed. -/
def localRetryTrace (outcome : ℕ → Option (List Char)) :
    List SendEvent × Option (List Char) :=
  localRetryGo outcome 1 2

/-- Number of network attempts recorded in a trace. -/
def countAttempts (tr : List SendEvent) : ℕ :=
  (tr.filter fun e => match e with | SendEvent.attempt _ => true | _ => false).length

/-- C2: per delivery the loop performs at most 2 network attempts; the
second attempt happens exactly when the first attempt fails with an error
whose lowercased message matches the retriable set (in which case one
500 ms sleep separates the attempts), and a first error outside that set
gives exactly 1 attempt.  The loop is shared by the kitchen TCP path, the
fiscal HTTP path and the non-fiscal TCP path. -/
theorem c2_retry_cap (outcome : ℕ → Option (List Char)) :
    countAttempts (localRetryTrace outcome).1 ≤ 2 ∧
    (outcome 1 = none →
      (localRetryTrace outcome).1 = [SendEvent.attempt 1] ∧
      (localRetryTrace outcome).2 = none) ∧
    (∀ e, outcome 1 = some e → shouldRetryPrintLocally e = false →
      (localRetryTrace outcome).1 = [SendEvent.attempt 1] ∧
      (localRetryTrace outcome).2 = some e) ∧
    (∀ e, outcome 1 = some e → shouldRetryPrintLocally e = true →
      (localRetryTrace outcome).1 =
        [SendEvent.attempt 1, SendEvent.sleep500, SendEvent.attempt 2] ∧
      (localRetryTrace outcome).2 = outcome 2) := by
  have hmain : ∀ P : Prop, (outcome 1 = none → P) →
      (∀ e, outcome 1 = some e → P) → P := by
    intro P h1 h2
    cases h : outcome 1 with
    | none => exact h1 h
    | some e => exact h2 e h
  refine ⟨?_, ?_, ?_, ?_⟩
  · cases h1 : outcome 1 with
    | none => simp [localRetryTrace, localRetryGo, h1, countAttempts]
    | some e =>
      by_cases hr : shouldRetryPrintLocally e
      · cases h2 : outcome 2 with
        | none =>
          simp [localRetryTrace, localRetryGo, h1, h2, hr, countAttempts]
        | some e2 =>
          simp [localRetryTrace, localRetryGo, h1, h2, hr, countAttempts]
      · simp [localRetryTrace, localRetryGo, h1, hr, countAttempts]
  · intro h1
    simp [localRetryTrace, localRetryGo, h1]
  · intro e h1 hr
    simp [localRetryTrace, localRetryGo, h1, hr]
  · intro e h1 hr
    cases h2 : outcome 2 with
    | none => simp [localRetryTrace, localRetryGo, h1, h2, hr]
    | some e2 => simp [localRetryTrace, localRetryGo, h1, h2, hr]

/-- C2 witness: a first attempt failing with `ECONNRESET` (retriable after
lowercasing) leads to exactly two attempts with a sleep in between; the
second outcome (success) is returned. -/
theorem c2_witness :
    (localRetryTrace fun n => if n = 1 then some ("ECONNRESET".toList) else none).1 =
      [SendEvent.attempt 1, SendEvent.sleep500, SendEvent.attempt 2] ∧
    (localRetryTrace fun n => if n = 1 then some ("ECONNRESET".toList) else none).2 =
      none := by
  have h := (c2_retry_cap fun n => if n = 1 then some ("ECONNRESET".toList) else none).2.2.2
    "ECONNRESET".toList (by simp) (by decide)
  exact ⟨h.1, by rw [h.2]; simp⟩

/-- Persistent session snapshot (source type `SessionSnapshot`): two trimmed
non-empty tokens are guaranteed by the constructor `toSessionSnapshot`, but
the type itself allows any values, as in the source. -/
structure SessionSnapshot where
  access_token : List Char
  refresh_token : List Char
  expires_at : Option ℤ
deriving DecidableEq

/-- The JS expression `Number(e.expires_at || 0)`: a `null` (and a zero)
`expires_at` collapses to 0. -/
def expiresOr0 : Option ℤ → ℤ
  | none => 0
  | some n => n

/-- Source `sameSession`. -/
def sameSession : Option SessionSnapshot → Option SessionSnapshot → Bool
  | none, none => true
  | some a, some b =>
    decide (a.access_token = b.access_token) &&
      decide (a.refresh_token = b.refresh_token) &&
      decide (expiresOr0 a.expires_at = expiresOr0 b.expires_at)
  | _, _ => false

/-- A raw session object as handed to `toSessionSnapshot` (after JS string
coercion of the token fields); `none` models a non-object argument. -/
structure RawSession where
  access_token : List Char
  refresh_token : List Char
  expires_at : JsNum

/-- Source `toSessionSnapshot`. -/
def toSessionSnapshot : Option RawSession → Option SessionSnapshot
  | none => none
  | some r =>
    let accessToken := trim r.access_token
    let refreshToken := trim r.refresh_token
    if accessToken = [] ∨ refreshToken = [] then none
    else some
      { access_token := accessToken
        refresh_token := refreshToken
        expires_at :=
          match r.expires_at with
          | JsNum.num q => some (jsTrunc q)
          | _ => none }

/-- The slice of worker state that `syncSession` touches: the saved
snapshot, a count of `persistState` disk writes, and the log list. -/
structure SessionWorkerState where
  savedSession : Option SessionSnapshot
  persistCount : ℕ
  logs : List (List Char)
deriving DecidableEq

/-- Source `syncSession` (pure part; the auto-start attempt only launches
the service and never mutates the fields modelled here before returning).
Errors are surfaced in `Except`; the returned state is the state whose
public snapshot the method returns. -/
def syncSession (rawSession : Option RawSession) (st : SessionWorkerState) :
    Except (List Char) SessionWorkerState :=
  match toSessionSnapshot rawSession with
  | none => Except.error ("SESSION_INVALID".toList)
  | some snapshot =>
    if sameSession st.savedSession (some snapshot) then Except.ok st
    else Except.ok
      { savedSession := some snapshot
        persistCount := st.persistCount + 1
        logs := st.logs ++ ["Sessione desktop sincronizzata".toList] }

/-- C7 counterexample: the claim's iff is false.  With equal tokens, a
`null` `expires_at` on one side and `0` on the other, `sameSession` holds
although the third field differs, because the source compares
`Number(expires_at || 0)`. -/
theorem c7_counterexample :
    sameSession
        (some { access_token := "t".toList, refresh_token := "r".toList,
                expires_at := none })
        (some { access_token := "t".toList, refresh_token := "r".toList,
                expires_at := some 0 }) = true ∧
    ({ access_token := "t".toList, refresh_token := "r".toList,
       expires_at := none } : SessionSnapshot) ≠
      { access_token := "t".toList, refresh_token := "r".toList,
        expires_at := some 0 } := by
  constructor
  · decide
  · decide

/-- C7 (amended): `sameSession` is an equivalence relation on nullable
snapshots; for non-null snapshots it holds iff the two token fields match
and the `expires_at` fields match up to the identification of `null` with
`0`; and `syncSession` with a snapshot that is `sameSession`-equal to the
saved one (in particular with a field-wise equal one) returns the state
unchanged: no mutation and no disk write. -/
theorem c7_sameSession_amended :
    (∀ a, sameSession a a = true) ∧
    (∀ a b, sameSession a b = true → sameSession b a = true) ∧
    (∀ a b c, sameSession a b = true → sameSession b c = true →
      sameSession a c = true) ∧
    (∀ a b : SessionSnapshot,
      sameSession (some a) (some b) = true ↔
        (a.access_token = b.access_token ∧ a.refresh_token = b.refresh_token ∧
          expiresOr0 a.expires_at = expiresOr0 b.expires_at)) ∧
    (∀ raw st snapshot, toSessionSnapshot raw = some snapshot →
      sameSession st.savedSession (some snapshot) = true →
      syncSession raw st = Except.ok st) := by
  refine ⟨?_, ?_, ?_, ?_, ?_⟩
  · intro a
    cases a <;> simp [sameSession]
  · intro a b h
    cases a <;> cases b <;> simp_all [sameSession]
  · intro a b c hab hbc
    cases a <;> cases b <;> cases c <;> simp_all [sameSession]
  · intro a b
    simp [sameSession, and_assoc]
  · intro raw st snapshot hsnap hsame
    simp [syncSession, hsnap, hsame]

/-- C7 amended witness: concrete instantiation of the `syncSession` no-op
branch and of reflexivity. -/
theorem c7_witness :
    syncSession
        (some { access_token := "t".toList, refresh_token := "r".toList,
                expires_at := JsNum.nan })
        { savedSession :=
            some { access_token := "t".toList, refresh_token := "r".toList,
                   expires_at := none }
          persistCount := 0, logs := [] } =
      Except.ok
        { savedSession :=
            some { access_token := "t".toList, refresh_token := "r".toList,
                   expires_at := none }
          persistCount := 0, logs := [] } := by
  exact c7_sameSession_amended.2.2.2.2 _ _
    { access_token := "t".toList, refresh_token := "r".toList,
      expires_at := none }
    (by decide) (by decide)

/-- JS string-typed `a || b`: the left operand unless it is the empty
string (the only falsy string). -/
def jsOrStr (a b : List Char) : List Char := if a = [] then b else a

/-- Source `normalizePaymentMethod`. -/
def normalizePaymentMethod (v : List Char) : List Char :=
  let method := toLowerJs (trim v)
  if method = "card".toList then ("card".toList) else ("cash".toList)

/-- Source `toCents`: 0 for non-finite or non-positive amounts, otherwise
`Math.max(0, Math.round(amount * 100))`. -/
def toCents : JsNum → ℤ
  | JsNum.num q => if q ≤ 0 then 0 else max 0 (jsRound (q * 100))
  | _ => 0

/-- Model of JS `replaceAll` with a single-character pattern. -/
def replaceAllC (pat : Char) (rep : List Char) : List Char → List Char
  | [] => []
  | c :: cs =>
    if c = pat then rep ++ replaceAllC pat rep cs
    else c :: replaceAllC pat rep cs

/-- Source `escapeXml`: the five `replaceAll` stages in source order
(`&` first, then `<`, `>`, `"`, `'`). -/
def escapeXml (s : List Char) : List Char :=
  replaceAllC (Char.ofNat 39) "&apos;".toList
    (replaceAllC (Char.ofNat 34) "&quot;".toList
      (replaceAllC '>' ("&gt;".toList)
        (replaceAllC '<' ("&lt;".toList)
          (replaceAllC '&' ("&amp;".toList) s))))

/-- Spec-side description of XML escaping: each of the five special
characters is replaced by its entity, every other character is kept. -/
def escCharSpec (c : Char) : List Char :=
  if c = '&' then ("&amp;".toList)
  else if c = '<' then ("&lt;".toList)
  else if c = '>' then ("&gt;".toList)
  else if c = Char.ofNat 34 then ("&quot;".toList)
  else if c = Char.ofNat 39 then ("&apos;".toList)
  else [c]

theorem replaceAllC_append (pat : Char) (rep : List Char) (a b : List Char) :
    replaceAllC pat rep (a ++ b) =
      replaceAllC pat rep a ++ replaceAllC pat rep b := by
  induction a with
  | nil => rfl
  | cons c cs ih =>
    by_cases h : c = pat <;> simp [replaceAllC, h, ih]

theorem escapeXml_append (a b : List Char) :
    escapeXml (a ++ b) = escapeXml a ++ escapeXml b := by
  simp [escapeXml, replaceAllC_append]

theorem escapeXml_single (c : Char) : escapeXml [c] = escCharSpec c := by
  by_cases h1 : c = '&'
  · subst h1; decide
  by_cases h2 : c = '<'
  · subst h2; decide
  by_cases h3 : c = '>'
  · subst h3; decide
  by_cases h4 : c = Char.ofNat 34
  · subst h4; decide
  by_cases h5 : c = Char.ofNat 39
  · subst h5; decide
  simp [escapeXml, escCharSpec, replaceAllC, h1, h2, h3, h4, h5]

theorem escapeXml_flatMap (s : List Char) :
    escapeXml s = s.flatMap escCharSpec := by
  induction s with
  | nil => rfl
  | cons c cs ih =>
    have : (c :: cs) = [c] ++ cs := rfl
    rw [this, escapeXml_append, escapeXml_single, ih]
    rfl

theorem escCharSpec_no_special (c : Char) :
    ∀ d ∈ escCharSpec c,
      ¬ (d = '<' ∨ d = '>' ∨ d = Char.ofNat 34 ∨ d = Char.ofNat 39) := by
  by_cases h1 : c = '&'
  · subst h1; decide
  by_cases h2 : c = '<'
  · subst h2; decide
  by_cases h3 : c = '>'
  · subst h3; decide
  by_cases h4 : c = Char.ofNat 34
  · subst h4; decide
  by_cases h5 : c = Char.ofNat 39
  · subst h5; decide
  intro d hd
  simp [escCharSpec, h1, h2, h3, h4, h5] at hd
  subst hd
  tauto

/-- Payload of a fiscal receipt job, after JS coercion of its fields. -/
structure FiscalPayload where
  table_number : List Char
  payment_method : List Char
  total_amount : JsNum

/-- The cents figure used for both the `price` and the `payment`
attribute. -/
def fiscalCents (p : FiscalPayload) : ℤ := max 1 (toCents p.total_amount)

/-- Decimal rendering of the cents figure, as interpolated in the XML. -/
def fiscalCentsRepr (p : FiscalPayload) : List Char := (toString (fiscalCents p)).toList

/-- The table label: trimmed `table_number`, or `-` when empty. -/
def fiscalTable (p : FiscalPayload) : List Char :=
  jsOrStr (trim p.table_number) "-".toList

/-- The `printRecItem` element of the fiscal document, with its five
attributes in source order. -/
def fiscalItemChunk (desc rep : List Char) : List Char :=
  "printRecItem description=\"".toList ++ desc ++ "\" price=\"".toList ++ rep ++
    "\" quantity=\"1\" department=\"1\" vatCode=\"1\"/>".toList

/-- The `printRecTotal` element of the fiscal document. -/
def fiscalTotalChunk (label rep : List Char) : List Char :=
  "printRecTotal description=\"".toList ++ label ++ "\" payment=\"".toList ++
    rep ++ "\"/>".toList

/-- Source `buildEpsonFiscalReceiptXml`.  The concatenation of the pieces
is character-for-character the template string of the source. -/
def buildEpsonFiscalReceiptXml (p : FiscalPayload) : List Char :=
  let paymentMethod := normalizePaymentMethod p.payment_method
  let paymentLabel :=
    if paymentMethod = "card".toList then ("ELETTRONICO".toList)
    else ("CONTANTI".toList)
  let description := "Sushiamo Tavolo ".toList ++ fiscalTable p
  "<?xml version=\"1.0\" encoding=\"UTF-8\"?>\n<FPMessage>\n  <beginFiscalReceipt operator=\"1\"/>\n  <".toList ++
    fiscalItemChunk (escapeXml description) (fiscalCentsRepr p) ++
    "\n  <".toList ++
    fiscalTotalChunk paymentLabel (fiscalCentsRepr p) ++
    "\n  <endFiscalReceipt/>\n</FPMessage>".toList

/-- C6: the fiscal document contains a `printRecItem` whose description is
the escaped `Sushiamo Tavolo <table>`, whose `price` is the decimal
rendering of `max(1, toCents total_amount)` and whose other attributes are
`quantity="1" department="1" vatCode="1"`; a `printRecTotal` whose
`payment` is the very same rendering and whose description is
`ELETTRONICO` for card payments and `CONTANTI` otherwise; for a finite
positive amount the cents figure is `max 1 (round (100 * amount))` and it
is 1 otherwise; and escaping replaces exactly the five XML special
characters by their entities, so no raw `< > " '` survives in escaped
values. -/
theorem c6_fiscal_xml (p : FiscalPayload) :
    List.IsInfix
      (fiscalItemChunk (escapeXml ("Sushiamo Tavolo ".toList ++ fiscalTable p))
        (fiscalCentsRepr p))
      (buildEpsonFiscalReceiptXml p) ∧
    (normalizePaymentMethod p.payment_method = "card".toList →
      List.IsInfix (fiscalTotalChunk ("ELETTRONICO".toList) (fiscalCentsRepr p))
        (buildEpsonFiscalReceiptXml p)) ∧
    (normalizePaymentMethod p.payment_method ≠ "card".toList →
      List.IsInfix (fiscalTotalChunk ("CONTANTI".toList) (fiscalCentsRepr p))
        (buildEpsonFiscalReceiptXml p)) ∧
    (∀ q : ℚ, p.total_amount = JsNum.num q → 0 < q →
      fiscalCents p = max 1 (jsRound (q * 100))) ∧
    ((p.total_amount.isFinite = false ∨
        ∀ q : ℚ, p.total_amount = JsNum.num q → q ≤ 0) →
      fiscalCents p = 1) ∧
    (∀ s : List Char, escapeXml s = s.flatMap escCharSpec ∧
      ∀ d ∈ escapeXml s,
        ¬ (d = '<' ∨ d = '>' ∨ d = Char.ofNat 34 ∨ d = Char.ofNat 39)) := by
  refine ⟨?_, ?_, ?_, ?_, ?_, ?_⟩
  · exact ⟨"<?xml version=\"1.0\" encoding=\"UTF-8\"?>\n<FPMessage>\n  <beginFiscalReceipt operator=\"1\"/>\n  <".toList,
      "\n  <".toList ++
        fiscalTotalChunk
          (if normalizePaymentMethod p.payment_method = "card".toList then
            "ELETTRONICO".toList else ("CONTANTI".toList))
          (fiscalCentsRepr p) ++
        "\n  <endFiscalReceipt/>\n</FPMessage>".toList,
      by simp [buildEpsonFiscalReceiptXml]⟩
  · intro h
    refine ⟨"<?xml version=\"1.0\" encoding=\"UTF-8\"?>\n<FPMessage>\n  <beginFiscalReceipt operator=\"1\"/>\n  <".toList ++
      fiscalItemChunk
        (escapeXml ("Sushiamo Tavolo ".toList ++ fiscalTable p))
        (fiscalCentsRepr p) ++ "\n  <".toList,
      "\n  <endFiscalReceipt/>\n</FPMessage>".toList, ?_⟩
    simp [buildEpsonFiscalReceiptXml, h]
  · intro h
    refine ⟨"<?xml version=\"1.0\" encoding=\"UTF-8\"?>\n<FPMessage>\n  <beginFiscalReceipt operator=\"1\"/>\n  <".toList ++
      fiscalItemChunk
        (escapeXml ("Sushiamo Tavolo ".toList ++ fiscalTable p))
        (fiscalCentsRepr p) ++ "\n  <".toList,
      "\n  <endFiscalReceipt/>\n</FPMessage>".toList, ?_⟩
    simp [buildEpsonFiscalReceiptXml]
    rw [if_neg (by simpa using h)]
  · intro q hq hpos
    simp only [fiscalCents, toCents, hq]
    rw [if_neg (by exact not_le.mpr hpos)]
    omega
  · intro h
    rcases h with h | h
    · cases hv : p.total_amount with
      | num q => rw [hv] at h; simp [JsNum.isFinite] at h
      | nan => simp [fiscalCents, toCents, hv]
      | posInf => simp [fiscalCents, toCents, hv]
      | negInf => simp [fiscalCents, toCents, hv]
    · cases hv : p.total_amount with
      | num q =>
        have hq := h q hv
        simp [fiscalCents, toCents, hv, hq]
      | nan => simp [fiscalCents, toCents, hv]
      | posInf => simp [fiscalCents, toCents, hv]
      | negInf => simp [fiscalCents, toCents, hv]
  · intro s
    exact ⟨escapeXml_flatMap s, by
      intro d hd
      rw [escapeXml_flatMap] at hd
      rcases List.mem_flatMap.mp hd with ⟨c, _, hdc⟩
      exact escCharSpec_no_special c d hdc⟩

/-- C6 witness: a concrete card payment produces the `ELETTRONICO` total
row with the shared cents rendering. -/
theorem c6_witness :
    List.IsInfix
      (fiscalTotalChunk ("ELETTRONICO".toList)
        (fiscalCentsRepr
          { table_number := "9".toList, payment_method := "card".toList,
            total_amount := JsNum.num 2 }))
      (buildEpsonFiscalReceiptXml
        { table_number := "9".toList, payment_method := "card".toList,
          total_amount := JsNum.num 2 }) := by
  exact (c6_fiscal_xml _).2.1 (by decide)

/-- Worker for `splitWs`; `current` accumulates the characters of the token
being read, in reverse. -/
def splitGo (current : List Char) : List Char → List (List Char)
  | [] => if current = [] then [] else [current.reverse]
  | c :: cs =>
    if isWs c then
      if current = [] then splitGo [] cs else current.reverse :: splitGo [] cs
    else splitGo (c :: current) cs

/-- Model of JS `text.split(/\s+/)` on trimmed text: the maximal runs of
non-whitespace characters, in order (empty tokens dropped). -/
def splitWs (l : List Char) : List (List Char) := splitGo [] l

/-- Join words with single spaces; this is the shape of the `current` line
accumulated by the greedy loop of `wrapText`. -/
def joinWords : List (List Char) → List Char
  | [] => []
  | [w] => w
  | w :: w2 :: ws => w ++ ' ' :: joinWords (w2 :: ws)

/-- The greedy loop of `wrapText` over the word list, with the `current`
line and the emitted `lines` as explicit accumulators. -/
def wrapGo (width : ℕ) : List (List Char) → List Char → List (List Char) → List (List Char)
  | [], current, lines => if current = [] then lines else lines ++ [current]
  | w :: ws, current, lines =>
    if current = [] then wrapGo width ws w lines
    else if current.length + 1 + w.length ≤ width then
      wrapGo width ws (current ++ ' ' :: w) lines
    else wrapGo width ws w (lines ++ [current])

/-- Source `wrapText`. -/
def wrapText (input : List Char) (width : ℕ) : List (List Char) :=
  let text := trim input
  if text = [] then [[]]
  else if text.length ≤ width then [text]
  else wrapGo width (splitWs text) [] []

/-- A whitespace-separated word: non-empty and free of whitespace. -/
def IsWord (w : List Char) : Prop := w ≠ [] ∧ ∀ c ∈ w, isWs c = false

/-- The words of a list of lines, in order. -/
def linesWords (ls : List (List Char)) : List (List Char) := ls.flatMap splitWs

theorem splitGo_word (w : List Char) (hw : ∀ c ∈ w, isWs c = false) :
    ∀ cur t, splitGo cur (w ++ t) = splitGo (w.reverse ++ cur) t := by
  induction w with
  | nil => intro cur t; simp
  | cons c w' ih =>
    intro cur t
    have hc : ¬ (isWs c = true) := by
      rw [hw c (by simp)]; simp
    have hw' : ∀ d ∈ w', isWs d = false := fun d hd => hw d (by simp [hd])
    show splitGo cur (c :: (w' ++ t)) = splitGo ((c :: w').reverse ++ cur) t
    rw [show splitGo cur (c :: (w' ++ t)) =
        if isWs c then
          (if cur = [] then splitGo [] (w' ++ t)
            else cur.reverse :: splitGo [] (w' ++ t))
        else splitGo (c :: cur) (w' ++ t) from rfl]
    rw [if_neg hc, ih hw' (c :: cur) t, List.reverse_cons, List.append_assoc]
    rfl

theorem splitWs_single_word (w : List Char) (hw : IsWord w) : splitWs w = [w] := by
  have h := splitGo_word w hw.2 [] []
  rw [List.append_nil] at h
  unfold splitWs
  rw [h]
  have : w.reverse ++ [] = w.reverse := List.append_nil _
  rw [this]
  simp [splitGo, hw.1]

theorem joinWords_ne_nil (ws : List (List Char)) (h : ∀ w ∈ ws, IsWord w) :
    joinWords ws = [] ↔ ws = [] := by
  match ws with
  | [] => simp [joinWords]
  | [w] =>
    simp only [joinWords]
    have := (h w (by simp)).1
    simp [this]
  | w :: w2 :: ws' =>
    simp only [joinWords]
    constructor
    · intro hh
      exact absurd (List.append_eq_nil.mp hh).1 (h w (by simp)).1
    · intro hh
      simp at hh

theorem joinWords_push :
    ∀ ws : List (List Char), ws ≠ [] → ∀ w : List Char,
      joinWords (ws ++ [w]) = joinWords ws ++ ' ' :: w
  | [], h, _ => absurd rfl h
  | [a], _, w => by simp [joinWords]
  | a :: b :: ws', _, w => by
    have ih := joinWords_push (b :: ws') (by simp) w
    show joinWords (a :: ((b :: ws') ++ [w])) =
      (a ++ ' ' :: joinWords (b :: ws')) ++ ' ' :: w
    rw [show (b :: ws') ++ [w] = b :: (ws' ++ [w]) from rfl]
    rw [show joinWords (a :: b :: (ws' ++ [w])) =
        a ++ ' ' :: joinWords (b :: (ws' ++ [w])) from rfl]
    rw [show (b : List Char) :: (ws' ++ [w]) = (b :: ws') ++ [w] from rfl, ih]
    simp

theorem splitWs_joinWords (ws : List (List Char)) (h : ∀ w ∈ ws, IsWord w) :
    splitWs (joinWords ws) = ws := by
  match ws with
  | [] => rfl
  | [w] => exact splitWs_single_word w (h w (by simp))
  | w :: w2 :: ws' =>
    have hw := h w (by simp)
    have hrest : ∀ u ∈ w2 :: ws', IsWord u := fun u hu => h u (by simp [hu])
    have ih := splitWs_joinWords (w2 :: ws') hrest
    simp only [joinWords]
    unfold splitWs
    rw [splitGo_word w hw.2 [] (' ' :: joinWords (w2 :: ws'))]
    have hsp : isWs ' ' = true := by decide
    have hwne : w.reverse ++ [] ≠ [] := by
      simp [hw.1]
    simp only [splitGo, hsp, if_true, if_neg hwne]
    rw [List.append_nil, List.reverse_reverse]
    unfold splitWs at ih
    rw [ih]

theorem splitGo_tokens (l : List Char) :
    ∀ cur, (∀ c ∈ cur, isWs c = false) → ∀ w ∈ splitGo cur l, IsWord w := by
  induction l with
  | nil =>
    intro cur hcur w hwmem
    simp only [splitGo] at hwmem
    split at hwmem
    · simp at hwmem
    · rename_i hne
      simp only [List.mem_singleton] at hwmem
      subst hwmem
      exact ⟨by simpa using hne, fun c hc => hcur c (List.mem_reverse.mp hc)⟩
  | cons c cs ih =>
    intro cur hcur w hwmem
    simp only [splitGo] at hwmem
    by_cases hc : isWs c
    · rw [if_pos hc] at hwmem
      split at hwmem
      · exact ih [] (by simp) w hwmem
      · rename_i hne
        rcases List.mem_cons.mp hwmem with h | h
        · subst h
          exact ⟨by simpa using hne, fun d hd => hcur d (List.mem_reverse.mp hd)⟩
        · exact ih [] (by simp) w h
    · rw [if_neg hc] at hwmem
      refine ih (c :: cur) ?_ w hwmem
      intro d hd
      rcases List.mem_cons.mp hd with h | h
      · subst h; simpa using hc
      · exact hcur d h

theorem splitWs_tokens (l : List Char) : ∀ w ∈ splitWs l, IsWord w :=
  splitGo_tokens l [] (by simp)

theorem linesWords_append (a b : List (List Char)) :
    linesWords (a ++ b) = linesWords a ++ linesWords b := by
  simp [linesWords]

theorem wrapGo_nil_eq (width : ℕ) (current : List Char)
    (lines : List (List Char)) :
    wrapGo width [] current lines =
      if current = [] then lines else lines ++ [current] := rfl

theorem wrapGo_cons_eq (width : ℕ) (w current : List Char)
    (ws lines : List (List Char)) :
    wrapGo width (w :: ws) current lines =
      if current = [] then wrapGo width ws w lines
      else if current.length + 1 + w.length ≤ width then
        wrapGo width ws (current ++ ' ' :: w) lines
      else wrapGo width ws w (lines ++ [current]) := rfl

theorem wrapGo_words (width : ℕ) :
    ∀ ws cws lines, (∀ w ∈ ws, IsWord w) → (∀ w ∈ cws, IsWord w) →
      linesWords (wrapGo width ws (joinWords cws) lines) =
        linesWords lines ++ cws ++ ws := by
  intro ws
  induction ws with
  | nil =>
    intro cws lines _ hcws
    rw [wrapGo_nil_eq]
    by_cases h : cws = []
    · subst h
      rw [show joinWords ([] : List (List Char)) = [] from rfl, if_pos rfl]
      simp [linesWords]
    · rw [if_neg ((not_iff_not.mpr (joinWords_ne_nil cws hcws)).mpr h)]
      rw [linesWords_append]
      simp [linesWords, splitWs_joinWords cws hcws]
  | cons w ws' ih =>
    intro cws lines hws hcws
    have hw : IsWord w := hws w (by simp)
    have hws' : ∀ u ∈ ws', IsWord u := fun u hu => hws u (by simp [hu])
    rw [wrapGo_cons_eq]
    by_cases h : cws = []
    · subst h
      rw [show joinWords ([] : List (List Char)) = [] from rfl, if_pos rfl]
      have := ih [w] lines hws' (by simpa using hw)
      simp only [joinWords] at this
      rw [this]
      simp
    · rw [if_neg ((not_iff_not.mpr (joinWords_ne_nil cws hcws)).mpr h)]
      by_cases hfit : (joinWords cws).length + 1 + w.length ≤ width
      · rw [if_pos hfit]
        rw [← joinWords_push cws h w]
        have hcwsw : ∀ u ∈ cws ++ [w], IsWord u := by
          intro u hu
          rcases List.mem_append.mp hu with h1 | h1
          · exact hcws u h1
          · simp only [List.mem_singleton] at h1; subst h1; exact hw
        rw [ih (cws ++ [w]) lines hws' hcwsw]
        simp
      · rw [if_neg hfit]
        have := ih [w] (lines ++ [joinWords cws]) hws' (by simpa using hw)
        simp only [joinWords] at this
        rw [this, linesWords_append]
        simp [linesWords, splitWs_joinWords cws hcws]

theorem wrapGo_line_shape (width : ℕ) (W : List (List Char)) :
    ∀ ws cur lines, (∀ w ∈ ws, w ∈ W) →
      (cur ≠ [] → cur.length ≤ width ∨ cur ∈ W) →
      (∀ l ∈ lines, l.length ≤ width ∨ l ∈ W) →
      ∀ l ∈ wrapGo width ws cur lines, l.length ≤ width ∨ l ∈ W := by
  intro ws
  induction ws with
  | nil =>
    intro cur lines _ hcur hlines l hl
    rw [wrapGo_nil_eq] at hl
    by_cases h : cur = []
    · rw [if_pos h] at hl
      exact hlines l hl
    · rw [if_neg h] at hl
      rcases List.mem_append.mp hl with h1 | h1
      · exact hlines l h1
      · simp only [List.mem_singleton] at h1
        subst h1
        exact hcur h
  | cons w ws' ih =>
    intro cur lines hws hcur hlines l hl
    have hwW : w ∈ W := hws w (by simp)
    have hws' : ∀ u ∈ ws', u ∈ W := fun u hu => hws u (by simp [hu])
    rw [wrapGo_cons_eq] at hl
    by_cases h : cur = []
    · rw [if_pos h] at hl
      exact ih w lines hws' (fun _ => Or.inr hwW) hlines l hl
    · rw [if_neg h] at hl
      by_cases hfit : cur.length + 1 + w.length ≤ width
      · rw [if_pos hfit] at hl
        refine ih (cur ++ ' ' :: w) lines hws' (fun _ => Or.inl ?_) hlines l hl
        rw [List.length_append, List.length_cons]
        omega
      · rw [if_neg hfit] at hl
        refine ih w (lines ++ [cur]) hws' (fun _ => Or.inr hwW) ?_ l hl
        intro u hu
        rcases List.mem_append.mp hu with h1 | h1
        · exact hlines u h1
        · simp only [List.mem_singleton] at h1
          subst h1
          exact hcur h

/-- C10: `wrapText` never splits a word.  For every input and width:
the concatenated word lists of the output lines are exactly the words of
the trimmed input (each word appears exactly once, whole and in order);
every output line either fits in `width` or is itself a single
(over-long) word of the input emitted unsplit; hence when every word fits
in `width`, every output line fits in `width`. -/
theorem c10_wrapText_no_word_split (s : List Char) (width : ℕ)
    (_hw : 1 ≤ width) :
    linesWords (wrapText s width) = splitWs (trim s) ∧
    (∀ l ∈ wrapText s width, l.length ≤ width ∨ l ∈ splitWs (trim s)) ∧
    ((∀ u ∈ splitWs (trim s), u.length ≤ width) →
      ∀ l ∈ wrapText s width, l.length ≤ width) := by
  have hbody :
      linesWords (wrapText s width) = splitWs (trim s) ∧
      (∀ l ∈ wrapText s width, l.length ≤ width ∨ l ∈ splitWs (trim s)) := by
    unfold wrapText
    by_cases h0 : trim s = []
    · rw [if_pos h0, h0]
      constructor
      · simp [linesWords, splitWs, splitGo]
      · intro l hl
        simp only [List.mem_singleton] at hl
        subst hl
        left
        simp
    · rw [if_neg h0]
      by_cases h1 : (trim s).length ≤ width
      · rw [if_pos h1]
        constructor
        · simp [linesWords]
        · intro l hl
          simp only [List.mem_singleton] at hl
          subst hl
          exact Or.inl h1
      · rw [if_neg h1]
        constructor
        · have := wrapGo_words width (splitWs (trim s)) [] []
            (splitWs_tokens (trim s)) (by simp)
          simpa [joinWords, linesWords] using this
        · intro l hl
          exact wrapGo_line_shape width (splitWs (trim s)) (splitWs (trim s))
            [] [] (fun w hw => hw) (fun h => absurd rfl h) (by simp) l hl
  refine ⟨hbody.1, hbody.2, ?_⟩
  intro hall l hl
  rcases hbody.2 l hl with h | h
  · exact h
  · exact hall l h

/-- C10 witness: concrete wrap of a three-word text at width 7. -/
theorem c10_witness :
    linesWords (wrapText ("sushi  maki tonno".toList) 7) =
      splitWs (trim ("sushi  maki tonno".toList)) ∧
    ∀ l ∈ wrapText ("sushi  maki tonno".toList) 7, l.length ≤ 7 := by
  have h := c10_wrapText_no_word_split ("sushi  maki tonno".toList) 7 (by norm_num)
  exact ⟨h.1, h.2.2 (by decide)⟩

/-- No two adjacent characters of `l` both satisfy `p`. -/
def NoRunP (p : Char → Bool) (l : List Char) : Prop :=
  List.Chain' (fun a b => ¬ (p a = true ∧ p b = true)) l

theorem collapseGo_cons (p : Char → Bool) (r : Char) (b : Bool) (a : Char)
    (cs : List Char) :
    collapseGo p r b (a :: cs) =
      if p a then
        (if b then collapseGo p r true cs else r :: collapseGo p r true cs)
      else a :: collapseGo p r false cs := rfl

theorem getLast?_cons_of_ne {α : Type} (a : α) (l : List α) (h : l ≠ []) :
    (a :: l).getLast? = l.getLast? := by
  obtain ⟨b, L, rfl⟩ := List.exists_cons_of_ne_nil h
  exact List.getLast?_cons_cons

theorem mem_collapseGo {p : Char → Bool} {r : Char} :
    ∀ {l : List Char} {b : Bool} {c : Char},
      c ∈ collapseGo p r b l → c = r ∨ p c = false := by
  intro l
  induction l with
  | nil => intro b c h; simp [collapseGo] at h
  | cons a cs ih =>
    intro b c h
    by_cases ha : p a
    · cases b with
      | true =>
        simp only [collapseGo, if_pos ha, if_pos rfl] at h
        exact ih h
      | false =>
        simp only [collapseGo, if_pos ha] at h
        rcases List.mem_cons.mp h with h1 | h1
        · exact Or.inl h1
        · exact ih h1
    · simp only [collapseGo, if_neg ha] at h
      rcases List.mem_cons.mp h with h1 | h1
      · subst h1
        right
        simpa using ha
      · exact ih h1

theorem head?_collapseGo_true {p : Char → Bool} {r : Char} :
    ∀ {l : List Char}, ∀ x ∈ (collapseGo p r true l).head?, p x = false := by
  intro l
  induction l with
  | nil => intro x h; simp [collapseGo] at h
  | cons a cs ih =>
    intro x h
    by_cases ha : p a
    · simp only [collapseGo, if_pos ha, if_pos rfl] at h
      exact ih x h
    · simp only [collapseGo, if_neg ha, List.head?_cons, Option.mem_def,
        Option.some.injEq] at h
      subst h
      simpa using ha

theorem noRunP_collapseGo {p : Char → Bool} {r : Char} :
    ∀ (l : List Char) (b : Bool), NoRunP p (collapseGo p r b l) := by
  intro l
  induction l with
  | nil => intro b; simp [collapseGo, NoRunP]
  | cons a cs ih =>
    intro b
    by_cases ha : p a
    · cases b with
      | true =>
        simpa only [collapseGo, if_pos ha, if_pos rfl] using ih true
      | false =>
        simp only [collapseGo, if_pos ha]
        refine List.chain'_cons'.mpr ⟨?_, ih true⟩
        intro y hy
        intro hc
        rw [head?_collapseGo_true y hy] at hc
        exact absurd hc.2 (by simp)
    · simp only [collapseGo, if_neg ha]
      refine List.chain'_cons'.mpr ⟨?_, ih false⟩
      intro y _
      intro hc
      exact absurd hc.1 (by simpa using ha)

theorem collapseGo_fixed {p : Char → Bool} {r : Char} :
    ∀ (l : List Char) (b : Bool), NoRunP p l →
      (∀ c ∈ l, p c = true → c = r) →
      (b = true → ∀ x ∈ l.head?, p x = false) →
      collapseGo p r b l = l := by
  intro l
  induction l with
  | nil => intro b _ _ _; rfl
  | cons a cs ih =>
    intro b hchain hall hhead
    have hchain' : NoRunP p cs := (List.chain'_cons'.mp hchain).2
    have hrel : ∀ y ∈ cs.head?, ¬ (p a = true ∧ p y = true) :=
      (List.chain'_cons'.mp hchain).1
    have hall' : ∀ c ∈ cs, p c = true → c = r := fun c hc => hall c (by simp [hc])
    by_cases ha : p a
    · cases b with
      | true =>
        have := hhead rfl a (by simp)
        rw [this] at ha
        simp at ha
      | false =>
        rw [collapseGo_cons, if_pos ha, if_neg (by simp)]
        have har : a = r := hall a (by simp) (by simpa using ha)
        rw [ih true hchain' hall'
          (fun _ => fun x hx => by
            have := hrel x hx
            by_contra hxp
            exact this ⟨by simpa using ha, by simpa using hxp⟩)]
        rw [har]
    · rw [collapseGo_cons, if_neg ha]
      rw [ih false hchain' hall' (by intro h; cases h)]

theorem collapseRuns_idem (p : Char → Bool) (r : Char) (l : List Char) :
    collapseRuns p r (collapseRuns p r l) = collapseRuns p r l := by
  unfold collapseRuns
  refine collapseGo_fixed _ false (noRunP_collapseGo l false) ?_ (by intro h; cases h)
  intro c hc hpc
  rcases mem_collapseGo hc with h | h
  · exact h
  · rw [hpc] at h; cases h

theorem collapseGo_all_false {p : Char → Bool} {r : Char} :
    ∀ (l : List Char) (b : Bool), (∀ c ∈ l, p c = false) →
      collapseGo p r b l = l := by
  intro l
  induction l with
  | nil => intro b _; rfl
  | cons a cs ih =>
    intro b hall
    have ha : ¬ (p a = true) := by
      rw [hall a (by simp)]; simp
    simp only [collapseGo, if_neg ha]
    rw [ih false (fun c hc => hall c (by simp [hc]))]

theorem collapseGo_false_ne_nil {p : Char → Bool} {r : Char} (a : Char)
    (cs : List Char) : collapseGo p r false (a :: cs) ≠ [] := by
  by_cases ha : p a
  · simp [collapseGo, if_pos ha]
  · simp [collapseGo, if_neg ha]

theorem collapseGo_ne_nil {p : Char → Bool} {r : Char} :
    ∀ (l : List Char) (b : Bool), (∃ c ∈ l, p c = false) →
      collapseGo p r b l ≠ [] := by
  intro l
  induction l with
  | nil => intro b h; simp at h
  | cons a cs ih =>
    intro b h
    by_cases ha : p a
    · have hcs : ∃ c ∈ cs, p c = false := by
        rcases h with ⟨c, hc, hpc⟩
        rcases List.mem_cons.mp hc with h1 | h1
        · subst h1
          rw [hpc] at ha
          simp at ha
        · exact ⟨c, h1, hpc⟩
      cases b with
      | true =>
        simp only [collapseGo, if_pos ha, if_pos rfl]
        exact ih true hcs
      | false => simp [collapseGo, if_pos ha]
    · cases b <;> simp [collapseGo, if_neg ha]

theorem getLast?_collapseGo {p : Char → Bool} {r : Char} :
    ∀ (l : List Char) (b : Bool) (x : Char), l.getLast? = some x →
      p x = false → (collapseGo p r b l).getLast? = some x := by
  intro l
  induction l with
  | nil => intro b x h _; simp at h
  | cons a cs ih =>
    intro b x hlast hx
    match cs, hlast with
    | [], hlast =>
      simp only [List.getLast?_singleton, Option.some.injEq] at hlast
      subst hlast
      have ha : ¬ (p a = true) := by rw [hx]; simp
      cases b <;> simp [collapseGo, if_neg ha]
    | c2 :: cs', hlast =>
      rw [List.getLast?_cons_cons] at hlast
      have hmem : x ∈ c2 :: cs' := List.mem_of_getLast?_eq_some hlast
      have hwit : ∃ c ∈ c2 :: cs', p c = false := ⟨x, hmem, hx⟩
      by_cases ha : p a
      · cases b with
        | true =>
          rw [collapseGo_cons, if_pos ha, if_pos rfl]
          exact ih true x hlast hx
        | false =>
          rw [collapseGo_cons, if_pos ha, if_neg (by simp)]
          rw [getLast?_cons_of_ne _ _ (collapseGo_ne_nil _ true hwit)]
          exact ih true x hlast hx
      · rw [collapseGo_cons, if_neg ha]
        rw [getLast?_cons_of_ne _ _ (collapseGo_false_ne_nil c2 cs')]
        exact ih false x hlast hx

theorem dropWhile_eq_self {p : Char → Bool} {l : List Char}
    (h : ∀ x ∈ l.head?, p x = false) : l.dropWhile p = l := by
  match l with
  | [] => rfl
  | c :: cs =>
    have := h c (by simp)
    rw [List.dropWhile_cons, if_neg (by rw [this]; simp)]

theorem head?_dropWhile {p : Char → Bool} :
    ∀ (l : List Char), ∀ x ∈ (l.dropWhile p).head?, p x = false := by
  intro l
  induction l with
  | nil => intro x h; simp at h
  | cons a cs ih =>
    intro x h
    by_cases ha : p a
    · rw [List.dropWhile_cons, if_pos (by simpa using ha)] at h
      exact ih x h
    · rw [List.dropWhile_cons, if_neg (by simpa using ha)] at h
      simp only [List.head?_cons, Option.mem_def, Option.some.injEq] at h
      subst h
      simpa using ha

theorem dropTrailing_eq_self {p : Char → Bool} {l : List Char}
    (h : ∀ x ∈ l.getLast?, p x = false) : dropTrailing p l = l := by
  unfold dropTrailing
  rw [dropWhile_eq_self (by simpa using h)]
  exact List.reverse_reverse l

theorem getLast?_dropTrailing {p : Char → Bool} (l : List Char) :
    ∀ x ∈ (dropTrailing p l).getLast?, p x = false := by
  intro x h
  unfold dropTrailing at h
  rw [List.getLast?_reverse] at h
  exact head?_dropWhile l.reverse x h

theorem dropTrailing_append (p : Char → Bool) (l : List Char) :
    dropTrailing p l ++ (l.reverse.takeWhile p).reverse = l := by
  unfold dropTrailing
  have h := List.takeWhile_append_dropWhile (p := p) (l := l.reverse)
  have := congrArg List.reverse h
  rw [List.reverse_append] at this
  simpa using this

theorem head?_dropTrailing {p : Char → Bool} (l : List Char)
    (h : dropTrailing p l ≠ []) : (dropTrailing p l).head? = l.head? := by
  conv_rhs => rw [← dropTrailing_append p l]
  rw [List.head?_append]
  match hd : dropTrailing p l, h with
  | c :: cs, _ => rfl

theorem trim_eq_self {l : List Char}
    (hh : ∀ x ∈ l.head?, isWs x = false)
    (hl : ∀ x ∈ l.getLast?, isWs x = false) : trim l = l := by
  unfold trim stripEnds
  rw [dropWhile_eq_self hh, dropTrailing_eq_self hl]

theorem trim_all_nonws {l : List Char}
    (h : ∀ c ∈ l, isWs c = false) : trim l = l :=
  trim_eq_self
    (fun x hx => h x (by cases l with
      | nil => simp at hx
      | cons a cs =>
        simp only [List.head?_cons, Option.mem_def, Option.some.injEq] at hx
        simp [hx]))
    (fun x hx => h x (List.mem_of_getLast?_eq_some hx))

/-- The lowercase test `/[a-zàèéìòù]/` of `prettifyDishName`. -/
def isLowerTest (c : Char) : Bool :=
  (97 ≤ c.toNat ∧ c.toNat ≤ 122) || c.toNat = 224 || c.toNat = 232 ||
    c.toNat = 233 || c.toNat = 236 || c.toNat = 242 || c.toNat = 249

/-- Model of JS `split(sep)` with a one-character separator: keeps empty
fields, and `"".split(sep)` is `[""]`. -/
def splitOnChar (sep : Char) : List Char → List (List Char)
  | [] => [[]]
  | c :: cs =>
    if c = sep then [] :: splitOnChar sep cs
    else
      match splitOnChar sep cs with
      | [] => [[c]]
      | t :: ts => (c :: t) :: ts

/-- Model of `part ? part[0].toUpperCase() + part.slice(1) : part`. -/
def capFirst : List Char → List Char
  | [] => []
  | c :: cs => toUpperChar c :: cs

/-- The whitespace normalization `trim().replace(/\s+/g, " ")` shared by
`prettifyDishName` and `sanitizeDeviceName`. -/
def wsNormalize (l : List Char) : List Char := collapseRuns isWs ' ' (trim l)

/-- Source `prettifyDishName`. -/
def prettifyDishName (value : List Char) : List Char :=
  let raw := wsNormalize value
  if raw = [] then []
  else if raw.any isLowerTest then raw
  else joinWords ((splitOnChar ' ' (toLowerJs raw)).map capFirst)

theorem toNat_ofNat_small {n : ℕ} (h : n < 55296) : (Char.ofNat n).toNat = n := by
  have hv : n.isValidChar := Or.inl h
  rw [Char.ofNat, dif_pos hv]
  rfl

theorem isWs_iff (c : Char) :
    isWs c = true ↔
      (c.toNat = 32 ∨ c.toNat = 9 ∨ c.toNat = 10 ∨ c.toNat = 13 ∨
        c.toNat = 11 ∨ c.toNat = 12) := by
  simp [isWs]
  tauto

theorem isWs_toLowerChar (c : Char) : isWs (toLowerChar c) = isWs c := by
  rw [Bool.eq_iff_iff, isWs_iff, isWs_iff]
  unfold toLowerChar
  by_cases h1 : 65 ≤ c.toNat ∧ c.toNat ≤ 90
  · rw [if_pos h1, toNat_ofNat_small (by omega)]
    omega
  · rw [if_neg h1]
    by_cases h2 : c.toNat = 192 ∨ c.toNat = 200 ∨ c.toNat = 201 ∨
        c.toNat = 204 ∨ c.toNat = 210 ∨ c.toNat = 217
    · rw [if_pos h2, toNat_ofNat_small (by omega)]
      omega
    · rw [if_neg h2]

theorem isWs_toUpperChar (c : Char) : isWs (toUpperChar c) = isWs c := by
  rw [Bool.eq_iff_iff, isWs_iff, isWs_iff]
  unfold toUpperChar
  by_cases h1 : 97 ≤ c.toNat ∧ c.toNat ≤ 122
  · rw [if_pos h1, toNat_ofNat_small (by omega)]
    omega
  · rw [if_neg h1]
    by_cases h2 : c.toNat = 224 ∨ c.toNat = 232 ∨ c.toNat = 233 ∨
        c.toNat = 236 ∨ c.toNat = 242 ∨ c.toNat = 249
    · rw [if_pos h2, toNat_ofNat_small (by omega)]
      omega
    · rw [if_neg h2]

theorem char_eq_iff_toNat {c d : Char} : c = d ↔ c.toNat = d.toNat := by
  constructor
  · intro h; rw [h]
  · intro h
    have := congrArg Char.ofNat h
    rwa [Char.ofNat_toNat, Char.ofNat_toNat] at this

theorem toLowerChar_eq_space {c : Char} : toLowerChar c = ' ' ↔ c = ' ' := by
  rw [char_eq_iff_toNat (c := toLowerChar c), char_eq_iff_toNat (c := c)]
  show (toLowerChar c).toNat = 32 ↔ c.toNat = 32
  unfold toLowerChar
  by_cases h1 : 65 ≤ c.toNat ∧ c.toNat ≤ 90
  · rw [if_pos h1, toNat_ofNat_small (by omega)]
    omega
  · rw [if_neg h1]
    by_cases h2 : c.toNat = 192 ∨ c.toNat = 200 ∨ c.toNat = 201 ∨
        c.toNat = 204 ∨ c.toNat = 210 ∨ c.toNat = 217
    · rw [if_pos h2, toNat_ofNat_small (by omega)]
      omega
    · rw [if_neg h2]

theorem splitGo_space (cur t : List Char) (hc : cur ≠ []) :
    splitGo cur (' ' :: t) = cur.reverse :: splitGo [] t := by
  show (if isWs ' ' then
      if cur = [] then splitGo [] t else cur.reverse :: splitGo [] t
    else splitGo (' ' :: cur) t) = cur.reverse :: splitGo [] t
  rw [if_pos (by decide), if_neg hc]

theorem splitWs_word_cons (w t : List Char) (hw : IsWord w) :
    splitWs (w ++ ' ' :: t) = w :: splitWs t := by
  unfold splitWs
  rw [splitGo_word w hw.2 [] (' ' :: t), List.append_nil]
  rw [splitGo_space _ _ (by simp [hw.1])]
  rw [List.reverse_reverse]

theorem joinWords_cons_ne (w : List Char) (W : List (List Char))
    (h : W ≠ []) : joinWords (w :: W) = w ++ ' ' :: joinWords W := by
  match W, h with
  | w2 :: ws, _ => rfl

theorem splitOnChar_ne_nil (sep : Char) (l : List Char) :
    splitOnChar sep l ≠ [] := by
  induction l with
  | nil => simp [splitOnChar]
  | cons c cs ih =>
    by_cases hc : c = sep
    · simp [splitOnChar, hc]
    · simp only [splitOnChar, if_neg hc]
      match h : splitOnChar sep cs with
      | [] => simp
      | t :: ts => simp

theorem splitOnChar_no_sep (sep : Char) (w : List Char)
    (h : ∀ c ∈ w, c ≠ sep) : splitOnChar sep w = [w] := by
  induction w with
  | nil => rfl
  | cons c cs ih =>
    have hc : c ≠ sep := h c (by simp)
    have ihc := ih (fun d hd => h d (by simp [hd]))
    simp only [splitOnChar, if_neg hc, ihc]

theorem splitOnChar_word_cons (sep : Char) (w t : List Char)
    (h : ∀ c ∈ w, c ≠ sep) :
    splitOnChar sep (w ++ sep :: t) = w :: splitOnChar sep t := by
  induction w with
  | nil => simp [splitOnChar]
  | cons c cs ih =>
    have hc : c ≠ sep := h c (by simp)
    have ihc := ih (fun d hd => h d (by simp [hd]))
    simp only [List.cons_append, splitOnChar, if_neg hc]
    rw [show cs.append (sep :: t) = cs ++ sep :: t from rfl, ihc]

theorem splitOnChar_joinWords :
    ∀ W : List (List Char), W ≠ [] →
      (∀ w ∈ W, w ≠ [] ∧ ∀ c ∈ w, c ≠ ' ') →
      splitOnChar ' ' (joinWords W) = W
  | [], h, _ => absurd rfl h
  | [w], _, hW => by
    simp only [joinWords]
    exact splitOnChar_no_sep ' ' w (hW w (by simp)).2
  | w :: w2 :: ws, _, hW => by
    have ih := splitOnChar_joinWords (w2 :: ws) (by simp)
      (fun u hu => hW u (by simp [hu]))
    show splitOnChar ' ' (w ++ ' ' :: joinWords (w2 :: ws)) = w :: w2 :: ws
    rw [splitOnChar_word_cons ' ' w _ (hW w (by simp)).2, ih]

theorem toLowerJs_joinWords (W : List (List Char)) :
    toLowerJs (joinWords W) = joinWords (W.map toLowerJs) := by
  match W with
  | [] => rfl
  | [w] => rfl
  | w :: w2 :: ws =>
    have ih := toLowerJs_joinWords (w2 :: ws)
    show toLowerJs (w ++ ' ' :: joinWords (w2 :: ws)) =
      toLowerJs w ++ ' ' :: joinWords ((w2 :: ws).map toLowerJs)
    unfold toLowerJs
    rw [List.map_append, List.map_cons]
    unfold toLowerJs at ih
    rw [show toLowerChar ' ' = ' ' from by decide, ih]

/-- The shape of a whitespace-normalized string: every whitespace character
is a plain space, no two adjacent whitespace characters, and no whitespace
at either end. -/
def WsNorm (l : List Char) : Prop :=
  (∀ c ∈ l, isWs c = true → c = ' ') ∧ NoRunP isWs l ∧
    (∀ x ∈ l.head?, isWs x = false) ∧ (∀ x ∈ l.getLast?, isWs x = false)

theorem head?_collapseGo_false_of {p : Char → Bool} {r : Char}
    {l : List Char} (h : ∀ x ∈ l.head?, p x = false) :
    (collapseGo p r false l).head? = l.head? := by
  match l with
  | [] => rfl
  | c :: cs =>
    have hc := h c (by simp)
    rw [collapseGo_cons, if_neg (by rw [hc]; simp)]
    rfl

theorem head?_trim (l : List Char) : ∀ x ∈ (trim l).head?, isWs x = false := by
  intro x hx
  unfold trim stripEnds at hx
  by_cases h : dropTrailing isWs (l.dropWhile isWs) = []
  · rw [h] at hx
    simp at hx
  · rw [head?_dropTrailing _ h] at hx
    exact head?_dropWhile l x hx

theorem getLast?_trim (l : List Char) :
    ∀ x ∈ (trim l).getLast?, isWs x = false := by
  intro x hx
  unfold trim stripEnds at hx
  exact getLast?_dropTrailing _ x hx

theorem wsNorm_wsNormalize (s : List Char) : WsNorm (wsNormalize s) := by
  refine ⟨?_, noRunP_collapseGo _ _, ?_, ?_⟩
  · intro c hc hws
    rcases mem_collapseGo hc with h | h
    · exact h
    · rw [hws] at h; cases h
  · intro x hx
    unfold wsNormalize collapseRuns at hx
    rw [head?_collapseGo_false_of (head?_trim s)] at hx
    exact head?_trim s x hx
  · intro x hx
    unfold wsNormalize collapseRuns at hx
    match hlast : (trim s).getLast? with
    | none =>
      have htr : trim s = [] := List.getLast?_eq_none_iff.mp hlast
      rw [htr] at hx
      simp [collapseGo] at hx
    | some y =>
      have hy : isWs y = false := getLast?_trim s y hlast
      rw [getLast?_collapseGo (trim s) false y hlast hy] at hx
      simp only [Option.mem_def, Option.some.injEq] at hx
      subst hx
      exact hy

theorem wsNormalize_idem (s : List Char) :
    wsNormalize (wsNormalize s) = wsNormalize s := by
  have h := wsNorm_wsNormalize s
  show collapseRuns isWs ' ' (trim (wsNormalize s)) = wsNormalize s
  rw [trim_eq_self h.2.2.1 h.2.2.2]
  exact collapseRuns_idem isWs ' ' (trim s)

theorem wsNorm_join :
    ∀ (n : ℕ) (l : List Char), l.length ≤ n → WsNorm l → l ≠ [] →
      splitWs l ≠ [] ∧ joinWords (splitWs l) = l := by
  intro n
  induction n with
  | zero =>
    intro l hlen _ hne
    exact absurd (List.length_eq_zero.mp (Nat.le_zero.mp hlen)) hne
  | succ n ih =>
    intro l hlen hnorm hne
    have hw_chars : ∀ c ∈ l.takeWhile (fun c => !isWs c), isWs c = false := by
      intro c hc
      have := List.mem_takeWhile_imp hc
      simpa using this
    have hw_ne : l.takeWhile (fun c => !isWs c) ≠ [] := by
      cases hl : l with
      | nil => exact absurd hl hne
      | cons c cs =>
        have hc : isWs c = false := by
          have := hnorm.2.2.1 c
          rw [hl] at this
          exact this (by simp)
        rw [List.takeWhile_cons, if_pos (by simp [hc])]
        simp
    have hw_word : IsWord (l.takeWhile (fun c => !isWs c)) := ⟨hw_ne, hw_chars⟩
    cases hr : l.dropWhile (fun c => !isWs c) with
    | nil =>
      have hlw : l = l.takeWhile (fun c => !isWs c) := by
        conv_lhs => rw [← List.takeWhile_append_dropWhile (p := fun c => !isWs c) (l := l)]
        rw [hr, List.append_nil]
      rw [hlw, splitWs_single_word _ hw_word]
      exact ⟨by simp, rfl⟩
    | cons d rest' =>
      have hl2 : l = l.takeWhile (fun c => !isWs c) ++ d :: rest' := by
        conv_lhs => rw [← List.takeWhile_append_dropWhile (p := fun c => !isWs c) (l := l)]
        rw [hr]
      have hd_ws : isWs d = true := by
        have := head?_dropWhile (p := fun c => !isWs c) l d (by rw [hr]; simp)
        simpa using this
      have hd_mem : d ∈ l := by
        refine List.Sublist.mem ?_ (List.dropWhile_sublist (l := l) (fun c => !isWs c))
        rw [hr]
        simp
      have hd_sp : d = ' ' := hnorm.1 d hd_mem hd_ws
      have hrest'_ne : rest' ≠ [] := by
        intro hcon
        rw [hcon] at hl2
        have := hnorm.2.2.2 d (by rw [hl2, List.getLast?_concat]; rfl)
        rw [hd_ws] at this
        cases this
      have hchain_rest : List.Chain' (fun a b => ¬ (isWs a = true ∧ isWs b = true))
          (d :: rest') := by
        have h2 := hnorm.2.1
        rw [NoRunP, hl2] at h2
        exact h2.right_of_append
      have hhead' : ∀ x ∈ rest'.head?, isWs x = false := by
        intro x hx
        have := (List.chain'_cons'.mp hchain_rest).1 x hx
        by_contra hcon
        exact this ⟨hd_ws, by simpa using hcon⟩
      have hnorm' : WsNorm rest' := by
        refine ⟨?_, (List.chain'_cons'.mp hchain_rest).2, hhead', ?_⟩
        · intro c hc hws
          refine hnorm.1 c ?_ hws
          rw [hl2]
          simp [hc]
        · intro x hx
          refine hnorm.2.2.2 x ?_
          rw [hl2, List.getLast?_append]
          rw [getLast?_cons_of_ne d rest' hrest'_ne]
          rw [show rest'.getLast? = some x from hx]
          rfl
      have hlen' : rest'.length ≤ n := by
        have h1 := congrArg List.length hl2
        rw [List.length_append, List.length_cons] at h1
        have h2 : 1 ≤ (l.takeWhile (fun c => !isWs c)).length := by
          cases hwc : l.takeWhile (fun c => !isWs c) with
          | nil => exact absurd hwc hw_ne
          | cons a as => simp [hwc]
        omega
      obtain ⟨hne', hjoin'⟩ := ih rest' hlen' hnorm' hrest'_ne
      have hsw : splitWs l = l.takeWhile (fun c => !isWs c) :: splitWs rest' := by
        conv_lhs => rw [hl2, hd_sp]
        exact splitWs_word_cons _ rest' hw_word
      rw [hsw]
      refine ⟨by simp, ?_⟩
      rw [joinWords_cons_ne _ _ hne', hjoin']
      conv_rhs => rw [hl2, hd_sp]

theorem isWord_capFirst_toLower {w : List Char} (hw : IsWord w) :
    IsWord (capFirst (toLowerJs w)) := by
  match w, hw with
  | c :: cs, hw =>
    constructor
    · simp [toLowerJs, capFirst]
    · intro d hd
      show isWs d = false
      simp only [toLowerJs, List.map_cons, capFirst, List.mem_cons] at hd
      rcases hd with h | h
      · subst h
        rw [isWs_toUpperChar, isWs_toLowerChar]
        exact hw.2 c (by simp)
      · rcases List.mem_map.mp h with ⟨e, he, hde⟩
        subst hde
        rw [isWs_toLowerChar]
        exact hw.2 e (by simp [he])

/-- C9 counterexample: the input `" a"` contains the lowercase letter `a`,
yet `prettifyDishName` does not leave it unchanged: the leading space is
trimmed away. -/
theorem c9_counterexample :
    " a".toList.any isLowerTest = true ∧
    prettifyDishName (" a".toList) = "a".toList ∧
    prettifyDishName (" a".toList) ≠ " a".toList := by
  refine ⟨by decide, by decide, by decide⟩

/-- C9 (amended): `prettifyDishName` first normalizes whitespace (trim and
collapse runs to single spaces).  If the normalized name contains a
lowercase letter (`a`-`z` or `àèéìòù`) it is returned unchanged — so a name
that is already whitespace-normalized is left untouched; otherwise every
space-separated token is title-cased: the whole name is lowercased and each
token's first character is uppercased. -/
theorem c9_prettify_amended (s : List Char) :
    ((wsNormalize s).any isLowerTest = true →
      prettifyDishName s = wsNormalize s) ∧
    ((wsNormalize s).any isLowerTest = false →
      splitWs (prettifyDishName s) =
        (splitWs (wsNormalize s)).map (fun w => capFirst (toLowerJs w))) ∧
    prettifyDishName (wsNormalize s) = prettifyDishName s := by
  refine ⟨?_, ?_, ?_⟩
  · intro h
    have hne : wsNormalize s ≠ [] := by
      intro hcon
      rw [hcon] at h
      simp at h
    unfold prettifyDishName
    rw [if_neg hne, if_pos h]
  · intro h
    by_cases hne : wsNormalize s = []
    · unfold prettifyDishName
      rw [if_pos hne, hne]
      rfl
    · have hW := wsNorm_join (wsNormalize s).length (wsNormalize s) le_rfl
        (wsNorm_wsNormalize s) hne
      obtain ⟨hWne, hWjoin⟩ := hW
      have hWwords : ∀ w ∈ splitWs (wsNormalize s), IsWord w :=
        splitWs_tokens (wsNormalize s)
      have hlow : toLowerJs (wsNormalize s) =
          joinWords ((splitWs (wsNormalize s)).map toLowerJs) := by
        rw [← hWjoin, toLowerJs_joinWords, hWjoin]
      have hsplitlow : splitOnChar ' ' (toLowerJs (wsNormalize s)) =
          (splitWs (wsNormalize s)).map toLowerJs := by
        rw [hlow]
        refine splitOnChar_joinWords _ (by simpa using hWne) ?_
        intro u hu
        rcases List.mem_map.mp hu with ⟨w, hw, hwu⟩
        subst hwu
        have hword := hWwords w hw
        refine ⟨by simpa [toLowerJs] using hword.1, ?_⟩
        intro c hc
        rcases List.mem_map.mp hc with ⟨e, he, hec⟩
        subst hec
        intro hcon
        have := toLowerChar_eq_space.mp hcon
        subst this
        have := hword.2 ' ' he
        simp [isWs] at this
      unfold prettifyDishName
      rw [if_neg hne, if_neg (by rw [h]; simp)]
      rw [hsplitlow, List.map_map]
      have hwords2 : ∀ u ∈ (splitWs (wsNormalize s)).map (capFirst ∘ toLowerJs),
          IsWord u := by
        intro u hu
        rcases List.mem_map.mp hu with ⟨w, hw, hwu⟩
        subst hwu
        exact isWord_capFirst_toLower (hWwords w hw)
      rw [splitWs_joinWords _ hwords2]
      rfl
  · unfold prettifyDishName
    rw [wsNormalize_idem]

/-- C9 amended witness: a fully uppercase two-token name (with a double
space) is title-cased token-by-token. -/
theorem c9_witness :
    splitWs (prettifyDishName ("TUNA  ROLL".toList)) =
      (splitWs (wsNormalize ("TUNA  ROLL".toList))).map
        (fun w => capFirst (toLowerJs w)) := by
  exact (c9_prettify_amended _).2.1 (by decide)

/-- The value of `process.platform` as far as the consumer-id fallback is
concerned. -/
inductive Platform where
  | win32 : Platform
  | darwin : Platform
  | otherPlat : Platform
deriving DecidableEq

/-- The fallback platform tag: `win` / `mac` / `bridge`. -/
def platformTag : Platform → List Char
  | Platform.win32 => "win".toList
  | Platform.darwin => "mac".toList
  | Platform.otherPlat => "bridge".toList

/-- The normalization chain of `sanitizeConsumerId` before the emptiness
check: trim, lowercase, replace runs of characters outside `[a-z0-9._:-]`
by `-`, collapse `-` runs, strip leading/trailing `-`, slice to 64. -/
def normalizeConsumerId (value : List Char) : List Char :=
  ((stripEnds (fun c => c == '-')
        (collapseRuns (fun c => c == '-') '-'
          (collapseRuns (fun c => !consumerAllowed c) '-'
            (toLowerJs (trim value))))).take 64)

/-- The sanitized hostname used by the consumer-id fallback: lowercase,
replace each character outside `[a-z0-9-]` by `-` (per character, no run
collapsing at this step), collapse `-` runs, strip ends, slice to 40. -/
def hostPart (hostname : List Char) : List Char :=
  ((stripEnds (fun c => c == '-')
        (collapseRuns (fun c => c == '-') '-'
          ((toLowerJs hostname).map fun c => if hostAllowed c then c else '-'))).take 40)

/-- Source `sanitizeConsumerId`, with `process.platform` and
`os.hostname()` as explicit parameters. -/
def sanitizeConsumerId (pf : Platform) (hostname value : List Char) :
    List Char :=
  let raw := normalizeConsumerId value
  if raw ≠ [] then raw
  else
    ((platformTag pf ++ "-bridge-".toList ++
        (let host := hostPart hostname
         if host = [] then ("main".toList) else host)).take 64)

/-- Source `sanitizeDeviceName`, with `os.hostname()` as an explicit
parameter: trim, collapse whitespace runs to single spaces, slice to 80,
fall back to `Bridge <hostname>` when empty. -/
def sanitizeDeviceName (hostname value : List Char) : List Char :=
  let normalized := (wsNormalize value).take 80
  if normalized ≠ [] then normalized else ("Bridge ".toList) ++ hostname

theorem mem_collapseGo_subset {p : Char → Bool} {r : Char} :
    ∀ {l : List Char} {b : Bool} {c : Char},
      c ∈ collapseGo p r b l → c = r ∨ c ∈ l := by
  intro l
  induction l with
  | nil => intro b c h; simp [collapseGo] at h
  | cons a cs ih =>
    intro b c h
    by_cases ha : p a
    · cases b with
      | true =>
        rw [collapseGo_cons, if_pos ha, if_pos rfl] at h
        rcases ih h with h1 | h1
        · exact Or.inl h1
        · exact Or.inr (by simp [h1])
      | false =>
        rw [collapseGo_cons, if_pos ha, if_neg (by simp)] at h
        rcases List.mem_cons.mp h with h1 | h1
        · exact Or.inl h1
        · rcases ih h1 with h2 | h2
          · exact Or.inl h2
          · exact Or.inr (by simp [h2])
    · rw [collapseGo_cons, if_neg ha] at h
      rcases List.mem_cons.mp h with h1 | h1
      · exact Or.inr (by simp [h1])
      · rcases ih h1 with h2 | h2
        · exact Or.inl h2
        · exact Or.inr (by simp [h2])

theorem mem_dropTrailing {p : Char → Bool} {l : List Char} {c : Char}
    (h : c ∈ dropTrailing p l) : c ∈ l := by
  unfold dropTrailing at h
  rw [List.mem_reverse] at h
  have := List.Sublist.mem h (List.dropWhile_sublist p)
  rwa [List.mem_reverse] at this

theorem mem_stripEnds {p : Char → Bool} {l : List Char} {c : Char}
    (h : c ∈ stripEnds p l) : c ∈ l := by
  unfold stripEnds at h
  exact List.Sublist.mem (mem_dropTrailing h) (List.dropWhile_sublist p)

theorem chain'_take {α : Type} {R : α → α → Prop} {l : List α} (n : ℕ)
    (h : List.Chain' R l) : List.Chain' R (l.take n) := by
  have := List.take_append_drop n l
  rw [← this] at h
  exact h.left_of_append

theorem chain'_dropWhile {α : Type} {R : α → α → Prop} {p : α → Bool}
    {l : List α} (h : List.Chain' R l) : List.Chain' R (l.dropWhile p) := by
  obtain ⟨t, ht⟩ := List.dropWhile_suffix (l := l) p
  rw [← ht] at h
  exact h.right_of_append

theorem chain'_dropTrailing {R : Char → Char → Prop} {p : Char → Bool}
    {l : List Char} (h : List.Chain' R l) :
    List.Chain' R (dropTrailing p l) := by
  unfold dropTrailing
  rw [List.chain'_reverse]
  refine chain'_dropWhile ?_
  rw [List.chain'_reverse]
  exact h

theorem map_fixed {f : Char → Char} :
    ∀ {l : List Char}, (∀ c ∈ l, f c = c) → l.map f = l := by
  intro l
  induction l with
  | nil => intro _; rfl
  | cons a cs ih =>
    intro h
    rw [List.map_cons, h a (by simp), ih (fun c hc => h c (by simp [hc]))]

theorem head?_take_succ {α : Type} (l : List α) (n : ℕ) :
    (l.take (n + 1)).head? = l.head? := by
  cases l <;> rfl

theorem consumerAllowed_iff (c : Char) :
    consumerAllowed c = true ↔
      ((97 ≤ c.toNat ∧ c.toNat ≤ 122) ∨ (48 ≤ c.toNat ∧ c.toNat ≤ 57) ∨
        c.toNat = 46 ∨ c.toNat = 95 ∨ c.toNat = 58 ∨ c.toNat = 45) := by
  simp [consumerAllowed]
  tauto

theorem consumerAllowed_not_ws {c : Char} (h : consumerAllowed c = true) :
    isWs c = false := by
  rw [consumerAllowed_iff] at h
  cases hb : isWs c with
  | false => rfl
  | true =>
    have := (isWs_iff c).mp hb
    omega

theorem consumerAllowed_toLower_fixed {c : Char}
    (h : consumerAllowed c = true) : toLowerChar c = c := by
  rw [consumerAllowed_iff] at h
  unfold toLowerChar
  rw [if_neg (by omega), if_neg (by omega)]

theorem normalizeConsumerId_chars (s : List Char) :
    ∀ c ∈ normalizeConsumerId s, consumerAllowed c = true := by
  intro c hc
  unfold normalizeConsumerId collapseRuns at hc
  have hc1 := List.mem_of_mem_take hc
  have hc2 := mem_stripEnds hc1
  rcases mem_collapseGo_subset hc2 with h | h
  · subst h; decide
  · rcases mem_collapseGo h with h2 | h2
    · subst h2; decide
    · simpa using h2

theorem normalizeConsumerId_noRun (s : List Char) :
    NoRunP (fun c => c == '-') (normalizeConsumerId s) := by
  unfold normalizeConsumerId collapseRuns stripEnds
  exact chain'_take _ (chain'_dropTrailing (chain'_dropWhile
    (noRunP_collapseGo _ _)))

theorem normalizeConsumerId_head (s : List Char) :
    ∀ x ∈ (normalizeConsumerId s).head?, (x == '-') = false := by
  intro x hx
  unfold normalizeConsumerId at hx
  rw [show (64 : ℕ) = 63 + 1 from rfl, head?_take_succ] at hx
  unfold stripEnds at hx
  by_cases hz : dropTrailing (fun c => c == '-')
      ((collapseRuns (fun c => c == '-') '-'
        (collapseRuns (fun c => !consumerAllowed c) '-'
          (toLowerJs (trim s)))).dropWhile fun c => c == '-') = []
  · rw [hz] at hx
    simp at hx
  · rw [head?_dropTrailing _ hz] at hx
    exact head?_dropWhile _ x hx

theorem normalizeConsumerId_length (s : List Char) :
    (normalizeConsumerId s).length ≤ 64 := by
  unfold normalizeConsumerId
  rw [List.length_take]
  omega

theorem normalizeConsumerId_fixed (s : List Char)
    (hlast : (normalizeConsumerId s).getLast? ≠ some '-') :
    normalizeConsumerId (normalizeConsumerId s) = normalizeConsumerId s := by
  set y := normalizeConsumerId s with hy
  have hchars : ∀ c ∈ y, consumerAllowed c = true := normalizeConsumerId_chars s
  have h1 : trim y = y :=
    trim_all_nonws (fun c hc => consumerAllowed_not_ws (hchars c hc))
  have h2 : toLowerJs y = y :=
    map_fixed (fun c hc => consumerAllowed_toLower_fixed (hchars c hc))
  have h3 : collapseRuns (fun c => !consumerAllowed c) '-' y = y :=
    collapseGo_all_false y false (fun c hc => by simp [hchars c hc])
  have h4 : collapseRuns (fun c => c == '-') '-' y = y := by
    refine collapseGo_fixed y false (normalizeConsumerId_noRun s) ?_
      (fun h => absurd h (by simp))
    intro c _ hdash
    simpa using hdash
  have h5 : stripEnds (fun c => c == '-') y = y := by
    unfold stripEnds
    rw [dropWhile_eq_self (fun x hx => normalizeConsumerId_head s x hx)]
    refine dropTrailing_eq_self ?_
    intro x hx
    cases hb : (x == '-') with
    | false => rfl
    | true =>
      have hxd : x = '-' := by simpa using hb
      subst hxd
      exact absurd hx hlast
  have h6 : y.take 64 = y :=
    List.take_of_length_le (normalizeConsumerId_length s)
  show normalizeConsumerId y = y
  unfold normalizeConsumerId
  rw [h1, h2, h3, h4, h5, h6]

/-- C8 counterexample: the 65-character input of 63 `a`s followed by `-b`
normalizes (without hitting the length cap) to itself, but the 64-character
slice then ends in `-`, which a second sanitization strips: sanitization is
not idempotent. -/
theorem c8_counterexample :
    sanitizeConsumerId Platform.win32 ("h".toList)
        (sanitizeConsumerId Platform.win32 ("h".toList)
          (List.replicate 63 'a' ++ ['-', 'b'])) ≠
      sanitizeConsumerId Platform.win32 ("h".toList)
        (List.replicate 63 'a' ++ ['-', 'b']) := by
  decide

/-- C8 (amended): the numeric sanitizers (`sanitizePollMs`,
`sanitizeClaimLimit`, `sanitizePrinterPort`) are idempotent for every
input, and `sanitizeConsumerId` never returns the empty string (falling
back to the platform/hostname identifier).  The two string sanitizers are
idempotent for every input that does not fall back to the host-derived
default and whose truncation at the length cap (64 resp. 80) does not
leave a trailing `-` (resp. trailing whitespace); a truncation that
exposes such a trailing character is stripped by a second application. -/
theorem c8_sanitize_amended :
    (∀ v : JsNum,
      sanitizePollMs (JsNum.num (sanitizePollMs v : ℚ)) = sanitizePollMs v) ∧
    (∀ v : JsNum,
      sanitizeClaimLimit (JsNum.num (sanitizeClaimLimit v : ℚ)) =
        sanitizeClaimLimit v) ∧
    (∀ v : JsNum,
      sanitizePrinterPort (JsNum.num (sanitizePrinterPort v : ℚ)) =
        sanitizePrinterPort v) ∧
    (∀ (pf : Platform) (hostname value : List Char),
      sanitizeConsumerId pf hostname value ≠ []) ∧
    (∀ (pf : Platform) (hostname value : List Char),
      normalizeConsumerId value ≠ [] →
      (normalizeConsumerId value).getLast? ≠ some '-' →
      sanitizeConsumerId pf hostname (sanitizeConsumerId pf hostname value) =
        sanitizeConsumerId pf hostname value) ∧
    (∀ (hostname value : List Char),
      (wsNormalize value).take 80 ≠ [] →
      (∀ x ∈ ((wsNormalize value).take 80).getLast?, isWs x = false) →
      sanitizeDeviceName hostname (sanitizeDeviceName hostname value) =
        sanitizeDeviceName hostname value) := by
  refine ⟨?_, ?_, ?_, ?_, ?_, ?_⟩
  · intro v
    cases v with
    | num q =>
      show max 1000 (min 10000
          (jsTrunc ((max 1000 (min 10000 (jsTrunc q)) : ℤ) : ℚ))) =
        max 1000 (min 10000 (jsTrunc q))
      rw [jsTrunc_intCast]
      omega
    | nan =>
      show max 1000 (min 10000 (jsTrunc ((2500 : ℤ) : ℚ))) = 2500
      rw [jsTrunc_intCast]
      omega
    | posInf =>
      show max 1000 (min 10000 (jsTrunc ((2500 : ℤ) : ℚ))) = 2500
      rw [jsTrunc_intCast]
      omega
    | negInf =>
      show max 1000 (min 10000 (jsTrunc ((2500 : ℤ) : ℚ))) = 2500
      rw [jsTrunc_intCast]
      omega
  · intro v
    cases v with
    | num q =>
      show max 1 (min 20 (jsTrunc ((max 1 (min 20 (jsTrunc q)) : ℤ) : ℚ))) =
        max 1 (min 20 (jsTrunc q))
      rw [jsTrunc_intCast]
      omega
    | nan =>
      show max 1 (min 20 (jsTrunc ((5 : ℤ) : ℚ))) = 5
      rw [jsTrunc_intCast]
      omega
    | posInf =>
      show max 1 (min 20 (jsTrunc ((5 : ℤ) : ℚ))) = 5
      rw [jsTrunc_intCast]
      omega
    | negInf =>
      show max 1 (min 20 (jsTrunc ((5 : ℤ) : ℚ))) = 5
      rw [jsTrunc_intCast]
      omega
  · intro v
    have hrange : 1 ≤ sanitizePrinterPort v ∧ sanitizePrinterPort v ≤ 65535 :=
      sanitizePrinterPort_range v
    show (if 1 ≤ jsTrunc ((sanitizePrinterPort v : ℤ) : ℚ) ∧
        jsTrunc ((sanitizePrinterPort v : ℤ) : ℚ) ≤ 65535 then
        jsTrunc ((sanitizePrinterPort v : ℤ) : ℚ) else 9100) = sanitizePrinterPort v
    rw [jsTrunc_intCast, if_pos hrange]
  · intro pf hostname value
    by_cases h : normalizeConsumerId value = []
    · unfold sanitizeConsumerId
      rw [if_neg (by simpa using h)]
      rw [Ne, List.take_eq_nil_iff]
      rintro (h64 | hnil)
      · cases h64
      · rcases List.append_eq_nil.mp hnil with ⟨hleft, _⟩
        rcases List.append_eq_nil.mp hleft with ⟨htag, _⟩
        cases pf <;> simp [platformTag] at htag
    · unfold sanitizeConsumerId
      rw [if_pos (by simpa using h)]
      exact h
  · intro pf hostname value hne hlast
    have hy : sanitizeConsumerId pf hostname value = normalizeConsumerId value := by
      unfold sanitizeConsumerId
      rw [if_pos (by simpa using hne)]
    have hfix := normalizeConsumerId_fixed value hlast
    rw [hy]
    unfold sanitizeConsumerId
    rw [if_pos (by rw [hfix]; simpa using hne)]
    exact hfix
  · intro hostname value hne hlastws
    have hy : sanitizeDeviceName hostname value = (wsNormalize value).take 80 := by
      unfold sanitizeDeviceName
      rw [if_pos (by simpa using hne)]
    have hnorm := wsNorm_wsNormalize value
    have hhead : ∀ x ∈ ((wsNormalize value).take 80).head?, isWs x = false := by
      intro x hx
      rw [show (80 : ℕ) = 79 + 1 from rfl, head?_take_succ] at hx
      exact hnorm.2.2.1 x hx
    have htrim : trim ((wsNormalize value).take 80) = (wsNormalize value).take 80 :=
      trim_eq_self hhead hlastws
    have hcoll : collapseRuns isWs ' ' ((wsNormalize value).take 80) =
        (wsNormalize value).take 80 := by
      refine collapseGo_fixed _ false (chain'_take _ hnorm.2.1) ?_
        (fun h => absurd h (by simp))
      intro c hc hws
      exact hnorm.1 c (List.mem_of_mem_take hc) hws
    have hlen : ((wsNormalize value).take 80).length ≤ 80 := by
      rw [List.length_take]
      omega
    have htake : ((wsNormalize value).take 80).take 80 =
        (wsNormalize value).take 80 := List.take_of_length_le hlen
    have hwn : wsNormalize ((wsNormalize value).take 80) =
        (wsNormalize value).take 80 := by
      show collapseRuns isWs ' ' (trim ((wsNormalize value).take 80)) = _
      rw [htrim]
      exact hcoll
    have hfinal : sanitizeDeviceName hostname ((wsNormalize value).take 80) =
        (wsNormalize value).take 80 := by
      show (if ((wsNormalize ((wsNormalize value).take 80)).take 80) ≠ [] then
          ((wsNormalize ((wsNormalize value).take 80)).take 80)
        else ("Bridge ".toList) ++ hostname) = (wsNormalize value).take 80
      rw [hwn, htake, if_pos (by simpa using hne)]
    rw [hy]
    exact hfinal

/-- C8 amended witness: concrete instantiations — the port sanitizer is
idempotent at NaN, and the consumer-id sanitizer is idempotent at a short,
clean input. -/
theorem c8_witness :
    sanitizePrinterPort (JsNum.num ((sanitizePrinterPort JsNum.nan : ℤ) : ℚ)) =
      sanitizePrinterPort JsNum.nan ∧
    sanitizeConsumerId Platform.win32 ("h".toList)
        (sanitizeConsumerId Platform.win32 ("h".toList) "Cassa 1".toList) =
      sanitizeConsumerId Platform.win32 ("h".toList) "Cassa 1".toList := by
  constructor
  · exact c8_sanitize_amended.2.2.1 JsNum.nan
  · exact c8_sanitize_amended.2.2.2.2.1 Platform.win32 ("h".toList)
      "Cassa 1".toList (by decide) (by decide)

/-- Source `normalizeDepartment`: trimmed lowercase, default `cucina`. -/
def normalizeDepartment (value : List Char) : List Char :=
  let dep := toLowerJs (trim value)
  if dep = [] then ("cucina".toList) else dep

/-- A live printer from `restaurants.settings.printing.printers`. -/
structure LivePrinter where
  id : List Char
  name : List Char
  host : List Char
  port : ℤ
  enabled : Bool
  departments : List (List Char)
deriving DecidableEq

/-- The live routing index (`byId`/`byDepartment` maps as association
lists, plus the default printer id; `none` models a `null`
`default_printer_id`). -/
structure LiveRoutes where
  byId : List (List Char × LivePrinter)
  byDepartment : List (List Char × LivePrinter)
  defaultPrinterId : Option (List Char)
deriving DecidableEq

/-- A job's snapshot route object; absent string fields coerce to `""` and
an absent port to NaN, as under JS coercion. -/
structure RouteSnapshot where
  id : List Char
  printer_id : List Char
  name : List Char
  host : List Char
  port : JsNum
deriving DecidableEq

/-- The empty route object used when the job carries no snapshot route. -/
def emptyRouteSnapshot : RouteSnapshot :=
  { id := [], printer_id := [], name := [], host := [], port := JsNum.nan }

/-- A kitchen print job row (fields used by route resolution). -/
structure JobRow where
  id : List Char
  department : List Char
  route : Option RouteSnapshot
deriving DecidableEq

/-- The resolved delivery target. -/
structure ResolvedTarget where
  id : Option (List Char)
  name : List Char
  host : List Char
  port : ℤ
deriving DecidableEq

/-- Model of `job.route && typeof job.route === "object" ? job.route : ...`. -/
def snapshotRouteOf (job : JobRow) : RouteSnapshot :=
  job.route.getD emptyRouteSnapshot

/-- Model of `String(snapshotRoute.id || snapshotRoute.printer_id).trim() || null`. -/
def snapshotIdOf (job : JobRow) : Option (List Char) :=
  let raw := trim (jsOrStr (snapshotRouteOf job).id (snapshotRouteOf job).printer_id)
  if raw = [] then none else some raw

/-- Model of `String(snapshotRoute.host).trim()`. -/
def snapshotHostOf (job : JobRow) : List Char := trim (snapshotRouteOf job).host

/-- The step-4 target taken from the snapshot:
`{id: snapshotId, name: String(name || snapshotId || host), host, port}`. -/
def snapshotTarget (job : JobRow) : ResolvedTarget :=
  { id := snapshotIdOf job
    name := jsOrStr (snapshotRouteOf job).name
      (jsOrStr ((snapshotIdOf job).getD []) (snapshotHostOf job))
    host := snapshotHostOf job
    port := sanitizePrinterPort (snapshotRouteOf job).port }

/-- The repeated guard of `resolveRouteForJob`:
`if (live && live.enabled && live.host) return {id, name, host, port}`. -/
def usableTarget : Option LivePrinter → Option ResolvedTarget
  | some live =>
    if live.enabled ∧ live.host ≠ [] then
      some { id := some live.id, name := live.name, host := live.host,
             port := live.port }
    else none
  | none => none

/-- Source `resolveRouteForJob`: the four-step priority chain.  The three
live-printer steps share the `usableTarget` guard. -/
def resolveRouteForJob (job : JobRow) (liveRoutes : Option LiveRoutes) :
    Option ResolvedTarget :=
  let dep := normalizeDepartment job.department
  let step1 : Option ResolvedTarget :=
    match liveRoutes, snapshotIdOf job with
    | some lr, some sid => usableTarget (lr.byId.lookup sid)
    | _, _ => none
  let step2 : Option ResolvedTarget :=
    match liveRoutes with
    | some lr => usableTarget (lr.byDepartment.lookup dep)
    | none => none
  let step3 : Option ResolvedTarget :=
    match liveRoutes with
    | some lr =>
      match lr.defaultPrinterId with
      | some did => usableTarget (lr.byId.lookup did)
      | none => none
    | none => none
  let step4 : Option ResolvedTarget :=
    if snapshotHostOf job ≠ [] then some (snapshotTarget job) else none
  (step1 <|> (step2 <|> (step3 <|> step4)))

/-- A printer the spec's resolution rules may select: enabled with a
non-empty host. -/
def usablePrinter (p : LivePrinter) : Bool :=
  p.enabled && decide (p.host ≠ [])

/-- The target built from a live printer. -/
def livePrinterTarget (p : LivePrinter) : ResolvedTarget :=
  { id := some p.id, name := p.name, host := p.host, port := p.port }

/-- The claim's route-resolution algorithm exactly as worded: step 2 only
requires "an enabled entry" for the department and step 3 only that the
default printer id "resolves to an enabled printer" — no host conditions
there. -/
def specResolveClaim (job : JobRow) (lr : LiveRoutes) :
    Option ResolvedTarget :=
  ((((snapshotIdOf job).bind fun sid => lr.byId.lookup sid).filter
      usablePrinter).map livePrinterTarget) <|>
  ((((lr.byDepartment.lookup (normalizeDepartment job.department)).filter
      fun p => p.enabled).map livePrinterTarget) <|>
  ((((lr.defaultPrinterId.bind fun d => lr.byId.lookup d).filter
      fun p => p.enabled).map livePrinterTarget) <|>
  (if snapshotHostOf job ≠ [] then some (snapshotTarget job) else none)))

/-- The amended resolution algorithm: as the claim, but steps 2 and 3 also
require the selected printer to carry a non-empty host (as step 1 already
does). -/
def specResolveAmended (job : JobRow) (lr : LiveRoutes) :
    Option ResolvedTarget :=
  ((((snapshotIdOf job).bind fun sid => lr.byId.lookup sid).filter
      usablePrinter).map livePrinterTarget) <|>
  ((((lr.byDepartment.lookup (normalizeDepartment job.department)).filter
      usablePrinter).map livePrinterTarget) <|>
  ((((lr.defaultPrinterId.bind fun d => lr.byId.lookup d).filter
      usablePrinter).map livePrinterTarget) <|>
  (if snapshotHostOf job ≠ [] then some (snapshotTarget job) else none)))

theorem usableTarget_some (p : LivePrinter) :
    usableTarget (some p) =
      if p.enabled ∧ p.host ≠ [] then
        some { id := some p.id, name := p.name, host := p.host,
               port := p.port }
      else none := rfl

theorem usableTarget_eq (e : Option LivePrinter) :
    usableTarget e = (e.filter usablePrinter).map livePrinterTarget := by
  cases e with
  | none => rfl
  | some p =>
    by_cases hp : p.enabled ∧ p.host ≠ []
    · rw [usableTarget_some, if_pos hp]
      rw [Option.filter_some, if_pos (by simp [usablePrinter, hp.1, hp.2])]
      rfl
    · rw [usableTarget_some, if_neg hp]
      rw [Option.filter_some, if_neg (by
        simp only [usablePrinter, Bool.and_eq_true, decide_eq_true_eq]
        intro h
        exact hp ⟨h.1, h.2⟩)]
      rfl

/-- The host extraction and empty-host guard at the top of `sendToPrinter`;
`outcome` supplies the per-attempt socket results for the retry loop. -/
def sendToPrinter (routeOverride : Option ResolvedTarget)
    (outcome : ℕ → Option (List Char)) :
    List SendEvent × Option (List Char) :=
  let host := trim (match routeOverride with | some r => r.host | none => [])
  if host = [] then ([], some ("NO_PRINTER_HOST".toList))
  else localRetryTrace outcome

/-- C3 counterexample job: no usable snapshot id, department defaulting to
`cucina`, inline snapshot host `10.0.0.5`. -/
def c3Job : JobRow :=
  { id := "j1".toList, department := [],
    route := some { id := [], printer_id := [], name := [],
                    host := "10.0.0.5".toList, port := JsNum.num 9100 } }

/-- C3 counterexample routes: the default printer `p9` is enabled but has
an empty host; `byDepartment` is empty. -/
def c3Routes : LiveRoutes :=
  { byId := [("p9".toList,
      { id := "p9".toList, name := "Default".toList, host := [],
        port := 9100, enabled := true, departments := [] })],
    byDepartment := [],
    defaultPrinterId := some ("p9".toList) }

/-- C3: the claimed priority order is false on the code as worded: with an
enabled default printer whose host is empty, the code skips step 3 and
uses the snapshot's inline host, while the claim as stated selects the
default printer at step 3. -/
theorem c3_counterexample :
    resolveRouteForJob c3Job (some c3Routes) ≠
        specResolveClaim c3Job c3Routes ∧
    resolveRouteForJob c3Job (some c3Routes) =
        some (snapshotTarget c3Job) := by
  constructor
  · decide
  · decide

/-- C3 (amended): route resolution follows exactly the claimed priority
order once steps 2 and 3 also require a non-empty host, as step 1 already
does: (1) the live printer under the snapshot route's id when enabled with
a non-empty host, (2) else the live department entry when enabled with a
non-empty host, (3) else the default printer when enabled with a non-empty
host, (4) else the snapshot's inline host, (5) else no target resolves and
delivery fails with `NO_PRINTER_HOST` before any network attempt.  Every
resolved target carries a non-empty host. -/
theorem c3_route_resolution_amended (job : JobRow) (lr : LiveRoutes) :
    resolveRouteForJob job (some lr) = specResolveAmended job lr ∧
    (resolveRouteForJob job (some lr) = none →
      ∀ outcome, sendToPrinter (resolveRouteForJob job (some lr)) outcome =
        ([], some ("NO_PRINTER_HOST".toList))) ∧
    (∀ r, resolveRouteForJob job (some lr) = some r → r.host ≠ []) := by
  have hmain : resolveRouteForJob job (some lr) = specResolveAmended job lr := by
    unfold resolveRouteForJob specResolveAmended
    cases hsid : snapshotIdOf job <;> cases hdid : lr.defaultPrinterId <;>
      simp [usableTarget_eq, hsid, hdid]
  refine ⟨hmain, ?_, ?_⟩
  · intro h outcome
    rw [h]
    rfl
  · intro r hr
    rw [hmain] at hr
    unfold specResolveAmended at hr
    have hstep : ∀ (e : Option LivePrinter) (x : Option ResolvedTarget),
        ((e.filter usablePrinter).map livePrinterTarget <|> x) = some r →
        r.host ≠ [] ∨ x = some r := by
      intro e x h
      cases he : (e.filter usablePrinter) with
      | none =>
        rw [he] at h
        simp only [Option.map_none', Option.none_orElse] at h
        exact Or.inr h
      | some p =>
        rw [he] at h
        simp only [Option.map_some', Option.some_orElse,
          Option.some.injEq] at h
        obtain ⟨-, hp⟩ := Option.filter_eq_some.mp he
        left
        rw [← h]
        show (livePrinterTarget p).host ≠ []
        simp only [usablePrinter, Bool.and_eq_true, decide_eq_true_eq] at hp
        unfold livePrinterTarget
        simpa using hp.2
    rcases hstep _ _ hr with h1 | h1
    · exact h1
    rcases hstep _ _ h1 with h2 | h2
    · exact h2
    rcases hstep _ _ h2 with h3 | h3
    · exact h3
    by_cases hs : snapshotHostOf job ≠ []
    · rw [if_pos hs] at h3
      have h4 := Option.some.inj h3
      rw [← h4]
      show (snapshotTarget job).host ≠ []
      unfold snapshotTarget
      simpa using hs
    · rw [if_neg hs] at h3
      cases h3

/-- The S5-style witness job: department `bar`, no snapshot route. -/
def c3WitnessJob : JobRow :=
  { id := "j2".toList, department := "bar".toList, route := none }

/-- The S5-style witness routes: no department entry, default printer `p9`
enabled at `10.0.0.9`. -/
def c3WitnessRoutes : LiveRoutes :=
  { byId := [("p9".toList,
      { id := "p9".toList, name := "Main".toList, host := "10.0.0.9".toList,
        port := 9100, enabled := true, departments := [] })],
    byDepartment := [],
    defaultPrinterId := some ("p9".toList) }

/-- C3 amended witness: the S5-style scenario — department `bar` with no
department route, default printer `p9` enabled at `10.0.0.9` — resolves
identically in the code and in the amended rules. -/
theorem c3_witness :
    resolveRouteForJob c3WitnessJob (some c3WitnessRoutes) =
      specResolveAmended c3WitnessJob c3WitnessRoutes := by
  exact (c3_route_resolution_amended _ _).1

/-- Oracle for one tick's kitchen-job section: the outcome of
`sendToPrinter` (after route resolution and internal retries; `none` =
delivered) and of each `completePrintJob` invocation by success flag
(`none` = RPC succeeded, `some e` = it threw `e`). -/
structure KitchenEnv where
  send : JobRow → Option (List Char)
  ack : JobRow → Bool → Option (List Char)

/-- Observable events of the kitchen-job loop. -/
inductive KEvent where
  | send : List Char → KEvent
  | ack : List Char → Bool → KEvent
  | logPrinted : List Char → KEvent
  | logAckFailed : List Char → KEvent
  | logError : List Char → KEvent
deriving DecidableEq

/-- The body of `for (const job of jobs)` in `runTick`'s kitchen section:
send, then `completePrintJob(job, true, null)`; on any throw the catch
block issues `completePrintJob(job, false, message)`, logging `Ack failed`
if that also throws, then logs the job error.  Returns the events and
whether `printed` (true) or `failed` (false) is incremented. -/
def processKitchenJob (env : KitchenEnv) (j : JobRow) : List KEvent × Bool :=
  match env.send j with
  | none =>
    match env.ack j true with
    | none =>
      ([KEvent.send j.id, KEvent.ack j.id true, KEvent.logPrinted j.id], true)
    | some _ =>
      match env.ack j false with
      | none =>
        ([KEvent.send j.id, KEvent.ack j.id true, KEvent.ack j.id false,
          KEvent.logError j.id], false)
      | some _ =>
        ([KEvent.send j.id, KEvent.ack j.id true, KEvent.ack j.id false,
          KEvent.logAckFailed j.id, KEvent.logError j.id], false)
  | some _ =>
    match env.ack j false with
    | none =>
      ([KEvent.send j.id, KEvent.ack j.id false, KEvent.logError j.id], false)
    | some _ =>
      ([KEvent.send j.id, KEvent.ack j.id false, KEvent.logAckFailed j.id,
        KEvent.logError j.id], false)

/-- The kitchen-job loop with its event and stats accumulators. -/
def runKitchenLoop (env : KitchenEnv) :
    List JobRow → List KEvent → ℕ → ℕ → List KEvent × ℕ × ℕ
  | [], acc, printed, failed => (acc, printed, failed)
  | j :: js, acc, printed, failed =>
    let r := processKitchenJob env j
    runKitchenLoop env js (acc ++ r.1)
      (if r.2 then printed + 1 else printed)
      (if r.2 then failed else failed + 1)

/-- One tick's kitchen section over the claimed batch. -/
def kitchenTick (env : KitchenEnv) (jobs : List JobRow) :
    List KEvent × ℕ × ℕ :=
  runKitchenLoop env jobs [] 0 0

/-- Number of `print_complete_job` invocations for job id `i` in a
trace. -/
def ackCount (i : List Char) (evs : List KEvent) : ℕ :=
  (evs.filter fun e =>
    match e with
    | KEvent.ack i2 _ => i2 == i
    | _ => false).length

/-- C1 counterexample environment: delivery succeeds but the success
completion call itself throws; the catch-side completion then succeeds. -/
def c1Env : KitchenEnv :=
  { send := fun _ => none
    ack := fun _ success => if success then some ("network down".toList) else none }

/-- C1 counterexample job. -/
def c1Job : JobRow := { id := "k1".toList, department := [], route := none }

/-- C1: the claim's "exactly one completion RPC call per job" is false:
when the success completion call throws, the catch block issues a second
completion call with `success=false`, so two `print_complete_job` calls
are made for the same job. -/
theorem c1_counterexample :
    ackCount ("k1".toList) (processKitchenJob c1Env c1Job).1 = 2 := by
  decide

theorem runKitchenLoop_events (env : KitchenEnv) :
    ∀ (jobs : List JobRow) (acc : List KEvent) (printed failed : ℕ),
      (runKitchenLoop env jobs acc printed failed).1 =
        acc ++ jobs.flatMap fun j => (processKitchenJob env j).1 := by
  intro jobs
  induction jobs with
  | nil => intro acc p f; simp [runKitchenLoop]
  | cons j js ih =>
    intro acc p f
    show (runKitchenLoop env js (acc ++ (processKitchenJob env j).1) _ _).1 = _
    rw [ih]
    simp

/-- C1 (amended): for every claimed kitchen job, at least one and at most
two completion RPC calls are issued before the next job is processed —
exactly one unless delivery succeeded and the success completion call
itself threw, in which case a second completion with `success=false` is
attempted; the whole batch is always processed (the events of a tick are
the concatenation of each job's events in claim order, so no failure
aborts the loop); and a completion call that fails on the catch path is
logged (`Ack failed`) without aborting the tick. -/
theorem c1_ack_totality_amended (env : KitchenEnv) :
    (∀ jobs, (kitchenTick env jobs).1 =
      jobs.flatMap fun j => (processKitchenJob env j).1) ∧
    (∀ j, 1 ≤ ackCount j.id (processKitchenJob env j).1 ∧
      ackCount j.id (processKitchenJob env j).1 ≤ 2) ∧
    (∀ j, ackCount j.id (processKitchenJob env j).1 = 2 ↔
      (env.send j = none ∧ env.ack j true ≠ none)) ∧
    (∀ j, (env.send j ≠ none ∨ env.ack j true ≠ none) →
      env.ack j false ≠ none →
      KEvent.logAckFailed j.id ∈ (processKitchenJob env j).1) := by
  refine ⟨?_, ?_, ?_, ?_⟩
  · intro jobs
    exact runKitchenLoop_events env jobs [] 0 0
  · intro j
    unfold processKitchenJob
    cases hs : env.send j with
    | none =>
      cases ha : env.ack j true with
      | none => simp [ackCount]
      | some e1 =>
        cases hb : env.ack j false with
        | none => simp [ackCount]
        | some e2 => simp [ackCount]
    | some e =>
      cases hb : env.ack j false with
      | none => simp [ackCount]
      | some e2 => simp [ackCount]
  · intro j
    unfold processKitchenJob
    cases hs : env.send j with
    | none =>
      cases ha : env.ack j true with
      | none => simp [ackCount]
      | some e1 =>
        cases hb : env.ack j false with
        | none => simp [ackCount]
        | some e2 => simp [ackCount]
    | some e =>
      cases hb : env.ack j false with
      | none => simp [ackCount, hs]
      | some e2 => simp [ackCount, hs]
  · intro j hfirst hcatch
    unfold processKitchenJob
    cases hs : env.send j with
    | none =>
      cases ha : env.ack j true with
      | none =>
        rcases hfirst with h | h
        · exact absurd hs h
        · exact absurd ha h
      | some e1 =>
        cases hb : env.ack j false with
        | none => exact absurd hb hcatch
        | some e2 => simp
    | some e =>
      cases hb : env.ack j false with
      | none => exact absurd hb hcatch
      | some e2 => simp

/-- C1 amended witness: with failing transport and a failing catch-side
completion, the job still yields exactly one completion call and the
failure is logged. -/
theorem c1_witness :
    KEvent.logAckFailed ("k2".toList) ∈
      (processKitchenJob
        { send := fun _ => some ("timeout".toList)
          ack := fun _ _ => some ("boom".toList) }
        { id := "k2".toList, department := [], route := none }).1 := by
  exact c1_ack_totality_amended _ |>.2.2.2
    { id := "k2".toList, department := [], route := none }
    (by left; simp) (by simp)

/-- Source `isMissingRpcError`: the lowercased message must contain the
RPC name and one of the four "function not found" phrasings. -/
def isMissingRpcError (e rpcName : List Char) : Bool :=
  let message := toLowerJs e
  let needle := toLowerJs (trim rpcName)
  if needle = [] then false
  else
    strContains needle message &&
      (strContains ("schema cache".toList) message ||
        strContains ("could not find".toList) message ||
        strContains ("does not exist".toList) message ||
        strContains ("not found".toList) message)

/-- Oracle for one receipt-family tick: the claim RPC result (job ids on
success) and per-job send/complete outcomes. -/
structure FamEnv where
  claimResult : Except (List Char) (List (List Char))
  send : List Char → Option (List Char)
  ack : List Char → Bool → Option (List Char)

/-- Family RPC events: each constructor is one backend RPC call of the
family, carrying the error it returned (if any). -/
inductive FEvent where
  | claimCall : Option (List Char) → FEvent
  | completeCall : List Char → Bool → Option (List Char) → FEvent
deriving DecidableEq

/-- One job of the receipt-family loop (shared shape of the physical and
non-fiscal blocks in `runTick`): send, complete on success; on a throw,
complete with failure, and if that completion itself throws with a
"function not found" error, clear the availability flag; the loop then
continues with the next job regardless. -/
def famProcessJob (completeName : List Char) (env : FamEnv) (avail : Bool)
    (j : List Char) : Bool × List FEvent :=
  match env.send j with
  | none =>
    match env.ack j true with
    | none => (avail, [FEvent.completeCall j true none])
    | some e1 =>
      match env.ack j false with
      | none =>
        (avail, [FEvent.completeCall j true (some e1),
          FEvent.completeCall j false none])
      | some e2 =>
        (if isMissingRpcError e2 completeName then false else avail,
          [FEvent.completeCall j true (some e1),
            FEvent.completeCall j false (some e2)])
  | some _ =>
    match env.ack j false with
    | none => (avail, [FEvent.completeCall j false none])
    | some e2 =>
      (if isMissingRpcError e2 completeName then false else avail,
        [FEvent.completeCall j false (some e2)])

/-- The per-tick job loop of a receipt family. -/
def famJobsLoop (completeName : List Char) (env : FamEnv) :
    List (List Char) → Bool → List FEvent → Bool × List FEvent
  | [], avail, acc => (avail, acc)
  | j :: js, avail, acc =>
    let r := famProcessJob completeName env avail j
    famJobsLoop completeName env js r.1 (acc ++ r.2)

/-- One tick's receipt-family section: skipped entirely when the
availability flag is down; otherwise claim, then process each claimed job;
a "function not found" claim error clears the flag (any other claim error
is caught by the section's catch and leaves the flag up). -/
def famTick (claimName completeName : List Char) (env : FamEnv)
    (avail : Bool) : Bool × List FEvent :=
  if avail then
    match env.claimResult with
    | Except.error e =>
      if isMissingRpcError e claimName then (false, [FEvent.claimCall (some e)])
      else (avail, [FEvent.claimCall (some e)])
    | Except.ok jobs => famJobsLoop completeName env jobs avail [FEvent.claimCall none]
  else (avail, [])

/-- A service run: the receipt-family sections of consecutive ticks, the
flag threaded through. -/
def runFamTicks (claimName completeName : List Char) :
    List FamEnv → Bool → List (List FEvent) × Bool
  | [], avail => ([], avail)
  | e :: es, avail =>
    let r := famTick claimName completeName e avail
    let rest := runFamTicks claimName completeName es r.1
    (r.2 :: rest.1, rest.2)

/-- The points where the code observes a "function not found" error: a
claim error, or a failure-completion error (the success-completion error is
only stringified, never tested). -/
def isMissingObs (claimName completeName : List Char) : FEvent → Bool
  | FEvent.claimCall (some e) => isMissingRpcError e claimName
  | FEvent.completeCall _ false (some e) => isMissingRpcError e completeName
  | _ => false

/-- The claim's property over one event list: nothing at all is issued
after a "function not found" observation. -/
def noFamilyCallAfterMissing (claimName completeName : List Char)
    (evs : List FEvent) : Prop :=
  ∀ i j : Fin evs.length, i.val < j.val →
    isMissingObs claimName completeName (evs.get i) = true → False

instance (claimName completeName : List Char) (evs : List FEvent) :
    Decidable (noFamilyCallAfterMissing claimName completeName evs) := by
  unfold noFamilyCallAfterMissing
  infer_instance

/-- The two availability flags of the worker. -/
structure RpcFlags where
  physicalReceiptRpcAvailable : Bool
  nonFiscalReceiptRpcAvailable : Bool
deriving DecidableEq

/-- The flag assignments of `startService`: both availability flags are
set to true, whatever they were. -/
def startServiceFlags (_ : RpcFlags) : RpcFlags :=
  { physicalReceiptRpcAvailable := true, nonFiscalReceiptRpcAvailable := true }

/-- The physical-receipt family's RPC names. -/
def physClaimName : List Char := "physical_receipt_claim_jobs".toList

/-- The physical-receipt completion RPC name. -/
def physCompleteName : List Char := "physical_receipt_complete_job".toList

/-- C5 counterexample message: the backend's "function not found" error for
the completion RPC. -/
def c5MissingMsg : List Char :=
  "Could not find the function physical_receipt_complete_job in schema cache".toList

/-- C5 counterexample environment: two claimed jobs; the first job's
failure-completion throws the "function not found" error, yet the loop
still issues the second job's completion RPC inside the same tick. -/
def c5Env : FamEnv :=
  { claimResult := Except.ok ["j1".toList, "j2".toList]
    send := fun _ => some ("Timeout stampante".toList)
    ack := fun j _ => if j == "j1".toList then some c5MissingMsg
      else some ("other error".toList) }

/-- C5: the claim is false as stated: after the "function not found"
observation on job 1's completion, the code still issues the completion
RPC for job 2 in the same tick (the flag only gates from the next tick
on), although the flag is indeed cleared by tick end. -/
theorem c5_counterexample :
    (famTick physClaimName physCompleteName c5Env true).1 = false ∧
    ¬ noFamilyCallAfterMissing physClaimName physCompleteName
        (famTick physClaimName physCompleteName c5Env true).2 := by
  constructor
  · decide
  · decide

theorem famJobsLoop_false (completeName : List Char) (env : FamEnv) :
    ∀ (js : List (List Char)) (acc : List FEvent),
      (famJobsLoop completeName env js false acc).1 = false := by
  intro js
  induction js with
  | nil => intro acc; rfl
  | cons j js' ih =>
    intro acc
    show (famJobsLoop completeName env js'
      (famProcessJob completeName env false j).1 _).1 = false
    have hflag : (famProcessJob completeName env false j).1 = false := by
      unfold famProcessJob
      cases env.send j with
      | none =>
        cases env.ack j true with
        | none => rfl
        | some e1 =>
          cases env.ack j false with
          | none => rfl
          | some e2 =>
            by_cases hm : isMissingRpcError e2 completeName
            · simp [hm]
            · simp [hm]
      | some e =>
        cases env.ack j false with
        | none => rfl
        | some e2 =>
          by_cases hm : isMissingRpcError e2 completeName
          · simp [hm]
          · simp [hm]
    rw [hflag]
    exact ih _

theorem famJobsLoop_true_no_obs (claimName completeName : List Char)
    (env : FamEnv) :
    ∀ (js : List (List Char)) (avail : Bool) (acc : List FEvent),
      (famJobsLoop completeName env js avail acc).1 = true →
      (∀ ev ∈ acc, isMissingObs claimName completeName ev = false) →
      ∀ ev ∈ (famJobsLoop completeName env js avail acc).2,
        isMissingObs claimName completeName ev = false := by
  intro js
  induction js with
  | nil =>
    intro avail acc hflag hacc ev hev
    exact hacc ev hev
  | cons j js' ih =>
    intro avail acc hflag hacc ev hev
    show isMissingObs claimName completeName ev = false
    have hstep :
        (famProcessJob completeName env avail j).1 = true →
        ∀ e ∈ (famProcessJob completeName env avail j).2,
          isMissingObs claimName completeName e = false := by
      intro hf e he
      unfold famProcessJob at hf he
      cases hs : env.send j with
      | none =>
        simp only [hs] at hf he
        cases ha : env.ack j true with
        | none =>
          simp only [ha] at he
          simp only [List.mem_singleton] at he
          subst he
          rfl
        | some e1 =>
          simp only [ha] at hf he
          cases hb : env.ack j false with
          | none =>
            simp only [hb] at he
            rcases List.mem_cons.mp he with h | h
            · subst h; rfl
            · simp only [List.mem_singleton] at h
              subst h; rfl
          | some e2 =>
            simp only [hb] at hf he
            have hm : isMissingRpcError e2 completeName = false := by
              by_contra hcon
              rw [if_pos (by simpa using hcon)] at hf
              cases hf
            rcases List.mem_cons.mp he with h | h
            · subst h; rfl
            · simp only [List.mem_singleton] at h
              subst h
              show isMissingRpcError e2 completeName = false
              exact hm
      | some e0 =>
        simp only [hs] at hf he
        cases hb : env.ack j false with
        | none =>
          simp only [hb] at he
          simp only [List.mem_singleton] at he
          subst he
          rfl
        | some e2 =>
          simp only [hb] at hf he
          have hm : isMissingRpcError e2 completeName = false := by
            by_contra hcon
            rw [if_pos (by simpa using hcon)] at hf
            cases hf
          simp only [List.mem_singleton] at he
          subst he
          show isMissingRpcError e2 completeName = false
          exact hm
    have hflag' : (famProcessJob completeName env avail j).1 = true := by
      by_contra hcon
      have h0 : (famProcessJob completeName env avail j).1 = false := by
        cases hx : (famProcessJob completeName env avail j).1
        · rfl
        · exact absurd hx hcon
      rw [show famJobsLoop completeName env (j :: js') avail acc =
        famJobsLoop completeName env js'
          (famProcessJob completeName env avail j).1
          (acc ++ (famProcessJob completeName env avail j).2) from rfl,
        h0, famJobsLoop_false] at hflag
      cases hflag
    refine ih (famProcessJob completeName env avail j).1
      (acc ++ (famProcessJob completeName env avail j).2) ?_ ?_ ev hev
    · exact hflag
    · intro e he
      rcases List.mem_append.mp he with h | h
      · exact hacc e h
      · exact hstep hflag' e h

/-- C5 (amended): once a "function not found" error is observed for a
receipt job family (on the claim RPC or on a failure-completion RPC), the
family's availability flag is false at the end of that tick; completions
for jobs already claimed in that same tick are still issued, but from the
next tick on, zero claim or completion RPCs of that family occur for the
rest of the service run; `startService` resets both flags to true. -/
theorem c5_rpc_degradation_amended (claimName completeName : List Char) :
    (∀ env, famTick claimName completeName env false = (false, [])) ∧
    (∀ envs, runFamTicks claimName completeName envs false =
      (envs.map fun _ => [], false)) ∧
    (∀ env avail,
      (∃ ev ∈ (famTick claimName completeName env avail).2,
        isMissingObs claimName completeName ev = true) →
      (famTick claimName completeName env avail).1 = false) ∧
    (∀ env avail envs,
      (∃ ev ∈ (famTick claimName completeName env avail).2,
        isMissingObs claimName completeName ev = true) →
      runFamTicks claimName completeName envs
          (famTick claimName completeName env avail).1 =
        (envs.map fun _ => [], false)) ∧
    (∀ f : RpcFlags, startServiceFlags f =
      { physicalReceiptRpcAvailable := true,
        nonFiscalReceiptRpcAvailable := true }) := by
  have h1 : ∀ env, famTick claimName completeName env false = (false, []) := by
    intro env
    rfl
  have h2 : ∀ envs, runFamTicks claimName completeName envs false =
      (envs.map fun _ => [], false) := by
    intro envs
    induction envs with
    | nil => rfl
    | cons e es ih =>
      show ((famTick claimName completeName e false).2 ::
        (runFamTicks claimName completeName es
          (famTick claimName completeName e false).1).1,
        (runFamTicks claimName completeName es
          (famTick claimName completeName e false).1).2) = _
      rw [h1 e]
      rw [show (((false : Bool), ([] : List FEvent)).1) = false from rfl]
      rw [ih]
      rfl
  have h3 : ∀ env avail,
      (∃ ev ∈ (famTick claimName completeName env avail).2,
        isMissingObs claimName completeName ev = true) →
      (famTick claimName completeName env avail).1 = false := by
    intro env avail hobs
    cases avail with
    | false => rw [h1 env]
    | true =>
      obtain ⟨ev, hev, hobs'⟩ := hobs
      unfold famTick at hev ⊢
      rw [if_pos rfl] at hev ⊢
      cases hc : env.claimResult with
      | error e =>
        simp only [hc] at hev ⊢
        by_cases hm : isMissingRpcError e claimName = true
        · rw [if_pos hm]
        · rw [if_neg hm] at hev ⊢
          simp only [List.mem_singleton] at hev
          subst hev
          exact absurd hobs' hm
      | ok jobs =>
        simp only [hc] at hev ⊢
        cases hflag : (famJobsLoop completeName env jobs true
            [FEvent.claimCall none]).1 with
        | false => rfl
        | true =>
          exfalso
          have := famJobsLoop_true_no_obs claimName completeName env jobs true
            [FEvent.claimCall none] hflag
            (by intro e2 he2
                simp only [List.mem_singleton] at he2
                subst he2
                rfl)
            ev hev
          rw [this] at hobs'
          cases hobs'
  refine ⟨h1, h2, h3, ?_, ?_⟩
  · intro env avail envs hobs
    rw [h3 env avail hobs]
    exact h2 envs
  · intro f
    rfl

/-- C5 amended witness: with the counterexample environment, the next
tick's section issues zero RPCs of the family. -/
theorem c5_witness :
    runFamTicks physClaimName physCompleteName [c5Env]
        (famTick physClaimName physCompleteName c5Env true).1 =
      ([[]], false) := by
  exact (c5_rpc_degradation_amended physClaimName physCompleteName).2.2.2.1
    c5Env true [c5Env]
    ⟨FEvent.completeCall ("j1".toList) false (some c5MissingMsg),
      by decide, by decide⟩

end Sushiamo
